import Mathlib

/-!
Verification development for the `nof0` importer
(`server/nof0/importer.py` together with the snapshot-reading parts of
`server/nof0/data_loader.py`).

The importer is a linear ETL pass: it reads JSON snapshot files from a data
directory and writes rows into a relational store through parameterized
`INSERT ... ON CONFLICT` statements.  We shallow-embed it as follows.

* JSON documents are modelled by the inductive type `JVal`.  Numbers are
  modelled by `ℚ`: every finite Python int/float is a rational, and all the
  arithmetic the importer performs on numbers (comparison with `1e12`,
  multiplication by `1000`, truncation to `int`) is exact on the values the
  importer meets.  Non-finite floats (`inf`/`nan`) have no rational value and
  are outside the model.
* Python-level operations on parsed JSON (`str()`, `.strip()`, `.get()`,
  `float()`, `int()`, truthiness, iteration) are modelled by total or
  `Option`-valued Lean functions; `none` models an exception propagating.
* The database is a record of lists (`DB`); the SQL statements of the source
  become pure operations on it.  Primary-key columns are NOT NULL and
  `ON CONFLICT` compares the statement's conflict target, as documented for
  the external query layer (the schema itself is not in the repository;
  modelled from the spec's persisted-schema section).
* The import pass `run_import` runs the six snapshot sections in source
  order.  A missing file skips the section with a warning, mirroring the
  `except FileNotFoundError` handlers; any other failure aborts the pass
  (`none`).  Because autocommit partial effects of an aborted pass are never
  observed by the claims, an aborting section is modelled as contributing no
  writes.  Only warning-level log lines are modelled; info-level summary
  logging and the `model_ids`/`symbols` summary sets do not affect the store.
-/

namespace Nof0

/-- Characters stripped by Python's `str.strip()` (ASCII whitespace as used
by the snapshots: space, tab, newline, carriage return, vertical tab, form
feed). -/
def pySpace (c : Char) : Bool :=
  c = ' ' || c = '\t' || c = '\n' || c = '\r' || c = '\x0b' || c = '\x0c'

/-- Drop leading whitespace characters (left part of `str.strip()`). -/
def trimLeft (l : List Char) : List Char := l.dropWhile pySpace

/-- Drop trailing whitespace characters (right part of `str.strip()`). -/
def trimRight : List Char → List Char
  | [] => []
  | a :: rest =>
    match trimRight rest with
    | [] => if pySpace a then [] else [a]
    | r => a :: r

/-- Python `str.strip()` on a string. -/
def pyStrip (s : String) : String := String.mk (trimRight (trimLeft s.data))

/-- Value of a decimal digit character. -/
def digitVal (c : Char) : ℕ := c.toNat - '0'.toNat

/-- Natural number denoted by a list of decimal digit characters. -/
def natOfDigits (l : List Char) : ℕ := l.foldl (fun acc c => 10 * acc + digitVal c) 0

/-- Parsed JSON values (the output of `json.load`/`json.loads`).  Numbers are
modelled by `ℚ`, which represents every finite Python int/float exactly. -/
inductive JVal where
  | null : JVal
  | bool (b : Bool) : JVal
  | num (q : ℚ) : JVal
  | str (s : String) : JVal
  | arr (xs : List JVal) : JVal
  | obj (fields : List (String × JVal)) : JVal

mutual

/-- Boolean equality on `JVal` (used where the SQL layer compares key
columns). -/
def jeq : JVal → JVal → Bool
  | .null, .null => true
  | .bool a, .bool b => a == b
  | .num a, .num b => a == b
  | .str a, .str b => a == b
  | .arr a, .arr b => jeqList a b
  | .obj a, .obj b => jeqFields a b
  | _, _ => false

/-- Boolean equality on lists of `JVal`. -/
def jeqList : List JVal → List JVal → Bool
  | [], [] => true
  | a :: arest, b :: brest => jeq a b && jeqList arest brest
  | _, _ => false

/-- Boolean equality on field lists. -/
def jeqFields : List (String × JVal) → List (String × JVal) → Bool
  | [], [] => true
  | (k, v) :: arest, (k', v') :: brest => k == k' && jeq v v' && jeqFields arest brest
  | _, _ => false

end


/-- First binding of a key in an object's field list (Python dicts built by
`json.loads` have unique keys, so first = only). -/
def lookupField : List (String × JVal) → String → Option JVal
  | [], _ => none
  | (k, x) :: rest, key => if k = key then some x else lookupField rest key

/-- Python `d.get(key, default)`.  Raises `AttributeError` (`none`) when the
receiver is not a dict, as in the source's unguarded `.get` calls. -/
def jGetD (v : JVal) (key : String) (dflt : JVal) : Option JVal :=
  match v with
  | .obj fs => some ((lookupField fs key).getD dflt)
  | _ => none

/-- Python `d.items()`: field list of a dict, `AttributeError` otherwise. -/
def jItems (v : JVal) : Option (List (String × JVal)) :=
  match v with
  | .obj fs => some fs
  | _ => none

/-- Python `for x in v`: list elements, characters of a string, keys of a
dict; `TypeError` (`none`) otherwise. -/
def pyIter (v : JVal) : Option (List JVal) :=
  match v with
  | .arr xs => some xs
  | .str s => some (s.data.map (fun c => JVal.str (String.mk [c])))
  | .obj fs => some (fs.map (fun p => JVal.str p.1))
  | _ => none

/-- Python truthiness of a parsed JSON value. -/
def jTruthy : JVal → Bool
  | .null => false
  | .bool b => b
  | .num q => decide (q ≠ 0)
  | .str s => decide (s ≠ "")
  | .arr [] => false
  | .arr (_ :: _) => true
  | .obj [] => false
  | .obj (_ :: _) => true

/-- Rendering of a number under Python `str()`/`repr()`.  Integral values
print like Python ints; the decimal rendering of non-integral floats is
approximated by the exact rational `num/den` form (the importer never
inspects such strings, it only strips and compares them to `""`). -/
def numRepr (q : ℚ) : String :=
  if q.den = 1 then toString q.num else toString q.num ++ "/" ++ toString q.den

mutual

/-- Python `repr()` of a parsed JSON value (dicts and lists print their
string members quoted, as CPython does). -/
def pyReprCore : JVal → String
  | .null => "None"
  | .bool b => if b then "True" else "False"
  | .num q => numRepr q
  | .str s => "\x27" ++ s ++ "\x27"
  | .arr xs => "[" ++ String.intercalate ", " (pyReprList xs) ++ "]"
  | .obj fs => "\x7b" ++ String.intercalate ", " (pyReprFields fs) ++ "\x7d"

def pyReprList : List JVal → List String
  | [] => []
  | v :: rest => pyReprCore v :: pyReprList rest

def pyReprFields : List (String × JVal) → List String
  | [] => []
  | (k, v) :: rest => ("\x27" ++ k ++ "\x27: " ++ pyReprCore v) :: pyReprFields rest

end

/-- Python `str()` of a parsed JSON value: identity on strings, `repr`
otherwise (so `str(None) = "None"`, `str(5) = "5"`, ...). -/
def pyStr : JVal → String
  | .str s => s
  | v => pyReprCore v

/-- A JSON string literal for `dumpsJson`. -/
def jsonQuote (s : String) : String :=
  "\"" ++ String.mk (s.data.foldr (fun c acc =>
    if c = '\"' ∨ c = '\\' then '\\' :: c :: acc else c :: acc) []) ++ "\""

mutual

/-- Model of `json.dumps` with default separators (string escaping is modelled for
quote and backslash; the importer never re-reads these payloads). -/
def dumpsJson : JVal → String
  | .null => "null"
  | .bool b => if b then "true" else "false"
  | .num q => numRepr q
  | .str s => jsonQuote s
  | .arr xs => "[" ++ String.intercalate ", " (dumpsList xs) ++ "]"
  | .obj fs => "\x7b" ++ String.intercalate ", " (dumpsFields fs) ++ "\x7d"

def dumpsList : List JVal → List String
  | [] => []
  | v :: rest => dumpsJson v :: dumpsList rest

def dumpsFields : List (String × JVal) → List String
  | [] => []
  | (k, v) :: rest => (jsonQuote k ++ ": " ++ dumpsJson v) :: dumpsFields rest

end

/-- One or more decimal digits taken from the front of `cs`; fails when the
first character is not a digit. -/
def spanDigits (cs : List Char) : Option (List Char × List Char) :=
  let ds := cs.takeWhile Char.isDigit
  if ds = [] then none else some (ds, cs.dropWhile Char.isDigit)

/-- Optional sign at the front of a numeric literal. -/
def takeSign (cs : List Char) : Bool × List Char :=
  match cs with
  | '-' :: rest => (true, rest)
  | '+' :: rest => (false, rest)
  | _ => (false, cs)

def signed (neg : Bool) (q : ℚ) : ℚ := if neg then -q else q

def scale10 (q : ℚ) (e : ℤ) : ℚ :=
  if e ≥ 0 then q * (10 ^ e.toNat : ℕ) else q / (10 ^ (-e).toNat : ℕ)

/-- Exponent part after `e`/`E`: optional sign then one or more digits. -/
def parseExp (cs : List Char) : Option (ℤ × List Char) :=
  let (neg, cs1) := takeSign cs
  match spanDigits cs1 with
  | none => none
  | some (ds, rest) => some (if neg then -(natOfDigits ds : ℤ) else (natOfDigits ds : ℤ), rest)

/-- Decimal literal (sign, integer digits, optional fraction, optional
exponent) taken from the front of `cs`; the exact rational value and the
remaining characters.  Models the common grammar of Python `float()` and
JSON numbers; `inf`/`nan` literals are outside the rational model. -/
def parseDecimal (cs : List Char) : Option (ℚ × List Char) :=
  let (neg, cs1) := takeSign cs
  let intDs := cs1.takeWhile Char.isDigit
  let cs2 := cs1.dropWhile Char.isDigit
  let (fracDs, cs3) :=
    match cs2 with
    | '.' :: rest => (rest.takeWhile Char.isDigit, rest.dropWhile Char.isDigit)
    | _ => (([] : List Char), cs2)
  if intDs = [] ∧ fracDs = [] then none
  else
    let mant : ℚ := (natOfDigits intDs : ℚ) + (natOfDigits fracDs : ℚ) / (10 ^ fracDs.length : ℕ)
    match cs3 with
    | 'e' :: rest =>
      match parseExp rest with
      | none => none
      | some (e, cs4) => some (signed neg (scale10 mant e), cs4)
    | 'E' :: rest =>
      match parseExp rest with
      | none => none
      | some (e, cs4) => some (signed neg (scale10 mant e), cs4)
    | _ => some (signed neg mant, cs3)

/-- Python `float(s)` on a string: strips whitespace, then requires the whole
remainder to be one decimal literal. -/
def pyFloatOfStr (s : String) : Option ℚ :=
  match parseDecimal (trimRight (trimLeft s.data)) with
  | some (q, []) => some q
  | _ => none

/-- Python `float(v)` on a parsed JSON value: numbers and bools convert,
numeric strings parse, everything else raises `TypeError`/`ValueError`
(`none`). -/
def pyFloatOf : JVal → Option ℚ
  | .num q => some q
  | .bool b => some (if b then 1 else 0)
  | .str s => pyFloatOfStr s
  | _ => none

/-- Python `int(s)` on a string: strips whitespace, optional sign, one or
more digits (no fraction or exponent). -/
def pyIntOfStr (s : String) : Option ℤ :=
  match takeSign (trimRight (trimLeft s.data)) with
  | (neg, cs) =>
    match spanDigits cs with
    | some (ds, []) => some (if neg then -(natOfDigits ds : ℤ) else (natOfDigits ds : ℤ))
    | _ => none

/-- Truncation toward zero, the behaviour of Python `int()` on a float. -/
def pyTrunc (q : ℚ) : ℤ := Int.tdiv q.num q.den

/-- Python `int(v)` on a parsed JSON value: ints/floats truncate, bools
convert, integer-literal strings parse; anything else raises (`none`). -/
def pyIntOf : JVal → Option ℤ
  | .num q => some (pyTrunc q)
  | .bool b => some (if b then 1 else 0)
  | .str s => pyIntOfStr s
  | _ => none

/-- JSON insignificant whitespace. -/
def jsonWs (c : Char) : Bool := c = ' ' || c = '\t' || c = '\n' || c = '\r'

def skipWs (cs : List Char) : List Char := cs.dropWhile jsonWs

def hexVal (c : Char) : Option ℕ :=
  if c.isDigit then some (digitVal c)
  else if 'a' ≤ c ∧ c ≤ 'f' then some (c.toNat - 'a'.toNat + 10)
  else if 'A' ≤ c ∧ c ≤ 'F' then some (c.toNat - 'A'.toNat + 10)
  else none

/-- Single-character JSON escapes. -/
def escChar (c : Char) : Option Char :=
  if c = '\"' then some '\"'
  else if c = '\\' then some '\\'
  else if c = '/' then some '/'
  else if c = 'b' then some '\x08'
  else if c = 'f' then some '\x0c'
  else if c = 'n' then some '\n'
  else if c = 'r' then some '\r'
  else if c = 't' then some '\t'
  else none

/-- Body of a JSON string literal after the opening quote: decoded characters
and the remainder after the closing quote. -/
def parseJStrAux : List Char → Option (List Char × List Char)
  | [] => none
  | '\"' :: rest => some ([], rest)
  | '\\' :: 'u' :: h1 :: h2 :: h3 :: h4 :: rest =>
    match hexVal h1, hexVal h2, hexVal h3, hexVal h4 with
    | some a, some b, some c, some d =>
      match parseJStrAux rest with
      | some (cs, r) => some (Char.ofNat (((a * 16 + b) * 16 + c) * 16 + d) :: cs, r)
      | none => none
    | _, _, _, _ => none
  | '\\' :: e :: rest =>
    match escChar e with
    | none => none
    | some c =>
      match parseJStrAux rest with
      | some (cs, r) => some (c :: cs, r)
      | none => none
  | c :: rest =>
    match parseJStrAux rest with
    | some (cs, r) => some (c :: cs, r)
    | none => none

mutual

/-- Recursive-descent model of `json.loads`, fuelled by input length (ample
for any input the importer can meet). -/
def parseJVal : ℕ → List Char → Option (JVal × List Char)
  | 0, _ => none
  | Nat.succ fuel, cs =>
    match skipWs cs with
    | 'n' :: 'u' :: 'l' :: 'l' :: rest => some (.null, rest)
    | 't' :: 'r' :: 'u' :: 'e' :: rest => some (.bool true, rest)
    | 'f' :: 'a' :: 'l' :: 's' :: 'e' :: rest => some (.bool false, rest)
    | '\"' :: rest =>
      match parseJStrAux rest with
      | some (cs', r) => some (.str (String.mk cs'), r)
      | none => none
    | '[' :: rest =>
      match skipWs rest with
      | ']' :: r => some (.arr [], r)
      | _ =>
        match parseJItems fuel rest with
        | some (vs, r) => some (.arr vs, r)
        | none => none
    | '\x7b' :: rest =>
      match skipWs rest with
      | '\x7d' :: r => some (.obj [], r)
      | _ =>
        match parseJFields fuel rest with
        | some (fs, r) => some (.obj fs, r)
        | none => none
    | other =>
      match parseDecimal other with
      | some (q, r) => some (.num q, r)
      | none => none

/-- Comma-separated array elements up to and including `]`. -/
def parseJItems : ℕ → List Char → Option (List JVal × List Char)
  | 0, _ => none
  | Nat.succ fuel, cs =>
    match parseJVal fuel cs with
    | none => none
    | some (v, r) =>
      match skipWs r with
      | ',' :: r2 =>
        match parseJItems fuel r2 with
        | some (vs, r3) => some (v :: vs, r3)
        | none => none
      | ']' :: r2 => some ([v], r2)
      | _ => none

/-- Comma-separated object members up to and including the closing brace. -/
def parseJFields : ℕ → List Char → Option (List (String × JVal) × List Char)
  | 0, _ => none
  | Nat.succ fuel, cs =>
    match skipWs cs with
    | '\"' :: rest =>
      match parseJStrAux rest with
      | none => none
      | some (kcs, r) =>
        match skipWs r with
        | ':' :: r2 =>
          match parseJVal fuel r2 with
          | none => none
          | some (v, r3) =>
            match skipWs r3 with
            | ',' :: r4 =>
              match parseJFields fuel r4 with
              | some (fs, r5) => some ((String.mk kcs, v) :: fs, r5)
              | none => none
            | '\x7d' :: r4 => some ([(String.mk kcs, v)], r4)
            | _ => none
        | _ => none
    | _ => none

end

/-- Model of `json.loads` on a string: one JSON document followed only by
whitespace. -/
def jsonLoads (s : String) : Option JVal :=
  match parseJVal (s.data.length + 2) s.data with
  | some (v, r) => if skipWs r = [] then some v else none
  | none => none

/-- Gregorian leap year. -/
def isLeap (y : ℤ) : Bool := (y.emod 4 = 0 && y.emod 100 ≠ 0) || y.emod 400 = 0

def daysInMonth (y m : ℤ) : ℤ :=
  if m = 2 then (if isLeap y then 29 else 28)
  else if m = 4 ∨ m = 6 ∨ m = 9 ∨ m = 11 then 30
  else 31

/-- Days from 1970-01-01 to the given civil date (Hinnant's algorithm with
floor division). -/
def daysFromCivil (y m d : ℤ) : ℤ :=
  let yy := if m ≤ 2 then y - 1 else y
  let era := Int.fdiv yy 400
  let yoe := yy - era * 400
  let mp := Int.emod (m + 9) 12
  let doy := Int.fdiv (153 * mp + 2) 5 + d - 1
  let doe := yoe * 365 + Int.fdiv yoe 4 - Int.fdiv yoe 100 + doy
  era * 146097 + doe - 719468

def d2ok (a b : Char) : Bool := a.isDigit && b.isDigit

/-- Trailing UTC-offset part of a `datetime.fromisoformat` string
(`±HH:MM`, or nothing for a naive datetime).  Returns offset seconds. -/
def parseIsoOffset : List Char → Option ℚ
  | [] => some 0
  | c :: o1 :: o2 :: ':' :: o3 :: o4 :: [] =>
    if (c = '+' ∨ c = '-') ∧ d2ok o1 o2 ∧ d2ok o3 o4 then
      let oh := natOfDigits [o1, o2]
      let om := natOfDigits [o3, o4]
      if oh ≤ 23 ∧ om ≤ 59 then some (signed (c = '-') ((3600 * oh + 60 * om : ℕ) : ℚ))
      else none
    else none
  | _ => none

/-- Time-of-day part `HH:MM[:SS[.ffffff]]` plus optional offset; seconds
within the day with the offset already subtracted. -/
def parseIsoTime (cs : List Char) : Option ℚ :=
  match cs with
  | h1 :: h2 :: ':' :: mi1 :: mi2 :: rest =>
    if d2ok h1 h2 ∧ d2ok mi1 mi2 then
      let h := natOfDigits [h1, h2]
      let mi := natOfDigits [mi1, mi2]
      if h ≤ 23 ∧ mi ≤ 59 then
        match rest with
        | ':' :: s1 :: s2 :: rest2 =>
          if d2ok s1 s2 ∧ natOfDigits [s1, s2] ≤ 59 then
            let sec := natOfDigits [s1, s2]
            match rest2 with
            | '.' :: rest3 =>
              let ds := rest3.takeWhile Char.isDigit
              let rest4 := rest3.dropWhile Char.isDigit
              if 1 ≤ ds.length ∧ ds.length ≤ 6 then
                match parseIsoOffset rest4 with
                | some off =>
                  some ((3600 * h + 60 * mi + sec : ℕ)
                    + (natOfDigits ds : ℚ) / ((10 ^ ds.length : ℕ) : ℚ) - off)
                | none => none
              else none
            | _ =>
              match parseIsoOffset rest2 with
              | some off => some (((3600 * h + 60 * mi + sec : ℕ) : ℚ) - off)
              | none => none
          else none
        | _ =>
          match parseIsoOffset rest with
          | some off => some (((3600 * h + 60 * mi : ℕ) : ℚ) - off)
          | none => none
      else none
    else none
  | _ => none

/-- Model of `datetime.fromisoformat` followed by `.timestamp()`: epoch
seconds as an exact rational.  Naive datetimes are interpreted in UTC (the
server's local time); a failed parse is `none` (the `ValueError` the caller
catches). -/
def parseIsoChars (cs : List Char) : Option ℚ :=
  match cs with
  | y1 :: y2 :: y3 :: y4 :: '-' :: m1 :: m2 :: '-' :: dd1 :: dd2 :: rest =>
    if d2ok y1 y2 ∧ d2ok y3 y4 ∧ d2ok m1 m2 ∧ d2ok dd1 dd2 then
      let y : ℤ := (natOfDigits [y1, y2, y3, y4] : ℤ)
      let mo : ℤ := (natOfDigits [m1, m2] : ℤ)
      let dy : ℤ := (natOfDigits [dd1, dd2] : ℤ)
      if 1 ≤ y ∧ 1 ≤ mo ∧ mo ≤ 12 ∧ 1 ≤ dy ∧ dy ≤ daysInMonth y mo then
        match rest with
        | [] => some (86400 * (daysFromCivil y mo dy : ℚ))
        | _ :: timecs =>
          match parseIsoTime timecs with
          | some t => some (86400 * (daysFromCivil y mo dy : ℚ) + t)
          | none => none
      else none
    else none
  | _ => none

def parseIsoStr (s : String) : Option ℚ := parseIsoChars s.data

/-- Python `s.replace("Z", "+00:00")` (single-character pattern, so a
character-by-character expansion is exact). -/
def pyReplaceZ (s : String) : String :=
  String.mk (s.data.foldr (fun c acc =>
    if c = 'Z' then '+' :: '0' :: '0' :: ':' :: '0' :: '0' :: acc else c :: acc) [])

/-- Embedding of `importer.to_ms`: heterogeneous timestamp value to epoch milliseconds.
`none` models an exception escaping `to_ms` (only possible through the
`$numberInt` wrapper arm, whose `int(...)` call sits outside every `try`). -/
def to_ms (value : JVal) : Option ℤ :=
  match value with
  | .null => some 0
  | .bool b =>
    let q : ℚ := if b then 1 else 0
    some (if q < 1000000000000 then pyTrunc (q * 1000) else pyTrunc q)
  | .num q => some (if q < 1000000000000 then pyTrunc (q * 1000) else pyTrunc q)
  | .str s =>
    let t := pyStrip s
    if t = "" then some 0
    else
      match pyFloatOfStr t with
      | some parsed =>
        some (if parsed < 1000000000000 then pyTrunc (parsed * 1000) else pyTrunc parsed)
      | none =>
        match parseIsoStr (pyReplaceZ t) with
        | some secs => some (pyTrunc (secs * 1000))
        | none => some 0
  | .obj fs =>
    match lookupField fs "$numberInt" with
    | some w =>
      match pyIntOf w with
      | some n => some n
      | none => none
    | none => some 0
  | .arr _ => some 0

/-- Embedding of `importer.to_ms_float`: tries a direct `float(...)` first, falling back
to `to_ms` when that raises. -/
def to_ms_float (value : JVal) : Option ℤ :=
  match value with
  | .null => some 0
  | v =>
    match pyFloatOf v with
    | none => to_ms v
    | some number =>
      some (if number < 1000000000000 then pyTrunc (number * 1000) else pyTrunc number)

/-- Embedding of `importer.null_if_empty`: empty/whitespace-only strings become NULL. -/
def null_if_empty (value : JVal) : JVal :=
  match value with
  | .str s => if pyStrip s = "" then .null else .str s
  | v => v

/-- Embedding of `importer.null_float`: parse as float; unparseable or exactly zero
becomes NULL. -/
def null_float (value : JVal) : Option ℚ :=
  match pyFloatOf value with
  | none => none
  | some number => if number = 0 then none else some number

/-- Python `x or "assistant"`, as used for conversation-message roles. -/
def pyOrAssistant (v : JVal) : JVal := if jTruthy v then v else .str "assistant"

/-- Python `str(x).strip()`, the conversion applied to every `model_id`/`symbol`
before a dimension upsert. -/
def strippedStr (v : JVal) : String := pyStrip (pyStr v)

/-- The parameter record of `importer.insert_trade` (raw values for
pass-through columns, sanitized values where the source sanitizes). -/
structure TradeRow where
  id : JVal
  model_id : JVal
  symbol : JVal
  side : JVal
  trade_type : JVal
  quantity : Option ℚ
  leverage : Option ℚ
  confidence : Option ℚ
  entry_price : JVal
  entry_ts_ms : ℤ
  exit_price : JVal
  exit_ts_ms : ℤ
  realized_gross_pnl : JVal
  realized_net_pnl : JVal
  total_commission_dollars : JVal

/-- The parameter record of `importer.insert_position_open`. -/
structure PositionRow where
  id : String
  model_id : String
  symbol : String
  side : String
  entry_price : JVal
  quantity : JVal
  leverage : Option ℚ
  confidence : Option ℚ
  entry_ts_ms : ℤ
  status : String

/-- A `conversation_messages` row. -/
structure MsgRow where
  conversation_id : ℤ
  role : JVal
  content : JVal
  ts_ms : ℤ

/-- The tables the importer writes.  `conv_seq` models the `conversations`
serial id generator (`RETURNING id`). -/
structure DB where
  models : List (String × String)
  symbols : List String
  price_latest : List (String × (ℚ × ℤ))
  trades : List TradeRow
  positions : List PositionRow
  model_analytics : List (String × String)
  conversations : List (ℤ × String)
  conversation_messages : List MsgRow
  conv_seq : ℤ

def emptyDB : DB := ⟨[], [], [], [], [], [], [], [], 1⟩

/-- Whether an association list has a row with the given key. -/
def hasKeyA {β : Type} (l : List (String × β)) (k : String) : Bool :=
  l.any (fun p => decide (p.1 = k))

/-- Semantics of `INSERT ... ON CONFLICT (key) DO UPDATE`: replace the value at an
existing key in place, else append. -/
def upsertAssoc {β : Type} (k : String) (v : β) (l : List (String × β)) : List (String × β) :=
  if hasKeyA l k then l.map (fun p => if p.1 = k then (k, v) else p)
  else l ++ [(k, v)]

/-- A sequence of keyed upserts applied in order. -/
def applyUpserts {β : Type} : List (String × β) → List (String × β) → List (String × β)
  | [], l => l
  | p :: rest, l => applyUpserts rest (upsertAssoc p.1 p.2 l)

/-- Value of the last upsert for a key in a sequence, if any. -/
def lastVal {β : Type} : List (String × β) → String → Option β
  | [], _ => none
  | p :: rest, k =>
    match lastVal rest k with
    | some v => some v
    | none => if p.1 = k then some p.2 else none

/-- Pointwise effect of a sequence of upserts on rows whose keys are already
present. -/
def overrideLast {β : Type} (ps : List (String × β)) (p : String × β) : String × β :=
  match lastVal ps p.1 with
  | some w => (p.1, w)
  | none => p

/-- Whether a list has a row whose key matches `r`'s. -/
def hasKeyR {ρ : Type} (keyEq : ρ → ρ → Bool) (l : List ρ) (r : ρ) : Bool :=
  l.any (fun x => keyEq x r)

/-- Semantics of `INSERT ... ON CONFLICT (key) DO NOTHING`: append unless a row with the
same key exists. -/
def insertKeyed {ρ : Type} (keyEq : ρ → ρ → Bool) (r : ρ) (l : List ρ) : List ρ :=
  if hasKeyR keyEq l r then l else l ++ [r]

/-- A sequence of keyed conflict-ignoring inserts applied in order. -/
def applyInserts {ρ : Type} (keyEq : ρ → ρ → Bool) : List ρ → List ρ → List ρ
  | [], l => l
  | r :: rest, l => applyInserts keyEq rest (insertKeyed keyEq r l)

/-- Conflict predicate of the `trades` table (`ON CONFLICT (id)`). -/
def tradeKeyEq (a b : TradeRow) : Bool := jeq a.id b.id

/-- Conflict predicate of the `positions` table (`ON CONFLICT (id)`). -/
def posKeyEq (a b : PositionRow) : Bool := a.id == b.id

/-- Conflict predicate of the `symbols` table (`ON CONFLICT (symbol)`). -/
def symKeyEq (a b : String) : Bool := a == b


/-- Embedding of `importer.upsert_model`. -/
def upsert_model (db : DB) (model_id display_name : String) : DB :=
  { db with models := upsertAssoc (pyStrip model_id) display_name db.models }

/-- Embedding of `importer.upsert_symbol`. -/
def upsert_symbol (db : DB) (symbol : String) : DB :=
  { db with symbols := insertKeyed symKeyEq (pyStrip symbol) db.symbols }

/-- Embedding of `importer.upsert_price_latest`. -/
def upsert_price_latest (db : DB) (symbol : String) (price : ℚ) (timestamp_ms : ℤ) : DB :=
  { db with price_latest := upsertAssoc symbol (price, timestamp_ms) db.price_latest }

/-- Embedding of `importer.insert_trade`: conflict target is `id`; a NULL id violates the
primary key (modelled from the spec: `trades(id PK, ...)` in the persisted
schema, which is owned by the external query layer). -/
def insert_trade (db : DB) (r : TradeRow) : Option DB :=
  match r.id with
  | .null => none
  | _ => some { db with trades := insertKeyed tradeKeyEq r db.trades }

/-- Embedding of `importer.insert_position_open` (the row's synthetic id is never null). -/
def insert_position_open (db : DB) (r : PositionRow) : DB :=
  { db with positions := insertKeyed posKeyEq r db.positions }

/-- Embedding of `importer.upsert_model_analytics` after its `json.dumps` normalization
(`updated_at = now()` is wall-clock time and is not modelled; it does not
affect row counts or keys). -/
def upsert_model_analytics (db : DB) (model_id : String) (payload : String) : DB :=
  { db with model_analytics := upsertAssoc model_id payload db.model_analytics }

/-- Embedding of `importer.insert_conversation`: always inserts, returns the generated
serial id. -/
def insert_conversation (db : DB) (model_id : String) : ℤ × DB :=
  (db.conv_seq,
   { db with
      conversations := db.conversations ++ [(db.conv_seq, model_id)],
      conv_seq := db.conv_seq + 1 })

/-- Embedding of `importer.insert_conversation_message` (including its own
`role or "assistant"` defaulting). -/
def insert_conversation_message (db : DB) (conversation_id : ℤ) (role content : JVal)
    (timestamp_ms : ℤ) : DB :=
  { db with
      conversation_messages :=
        db.conversation_messages ++ [⟨conversation_id, pyOrAssistant role, content, timestamp_ms⟩] }

/-- The SQL statements `run_import` can issue, in issue order.  A message
insert always follows the conversation insert it belongs to, so its
`conversation_id` is the most recently generated serial (`conv_seq - 1`),
exactly the id `RETURNING id` handed to the source code. -/
inductive Op where
  | upModel (m : String)
  | upSymbol (s : String)
  | upPrice (symbol : String) (price : ℚ) (ts : ℤ)
  | insTrade (r : TradeRow)
  | insPos (r : PositionRow)
  | upAnalytics (m : String) (payload : String)
  | insConvo (m : String)
  | insMsg (role content : JVal) (ts : ℤ)

/-- Execute one statement.  Every call site of `upsert_model` passes the
stripped model id as both id and display name. -/
def applyOp (db : DB) : Op → Option DB
  | .upModel m => some (upsert_model db m m)
  | .upSymbol s => some (upsert_symbol db s)
  | .upPrice sym p ts => some (upsert_price_latest db sym p ts)
  | .insTrade r => insert_trade db r
  | .insPos r => some (insert_position_open db r)
  | .upAnalytics m payload => some (upsert_model_analytics db m payload)
  | .insConvo m => some ((insert_conversation db m).2)
  | .insMsg role content ts => some (insert_conversation_message db (db.conv_seq - 1) role content ts)

def applyOps : DB → List Op → Option DB
  | db, [] => some db
  | db, op :: rest =>
    match applyOp db op with
    | none => none
    | some db' => applyOps db' rest

/-- An `Option`-valued map, short-circuiting on the first failure (the first
record whose processing raises). -/
def mapOpt {α β : Type} (f : α → Option β) : List α → Option (List β)
  | [] => some []
  | a :: rest =>
    match f a with
    | none => none
    | some b =>
      match mapOpt f rest with
      | none => none
      | some bs => some (b :: bs)

/-- One `(symbol, payload)` item of the crypto-prices section. -/
def priceItemOps (kv : String × JVal) : Option (List Op) :=
  match jGetD kv.2 "price" (.num 0) with
  | none => none
  | some priceV =>
    match pyFloatOf priceV with
    | none => none
    | some price =>
      match jGetD kv.2 "timestamp" .null with
      | none => none
      | some tsV =>
        match to_ms tsV with
        | none => none
        | some ts => some [.upSymbol kv.1, .upPrice kv.1 price ts]

/-- Crypto-prices section body (`DataLoader.load_crypto_prices` returns the
parsed document unchanged). -/
def pricesExtract (v : JVal) : Option (List Op) :=
  match jGetD v "prices" (.obj []) with
  | none => none
  | some prices =>
    match jItems prices with
    | none => none
    | some items =>
      match mapOpt priceItemOps items with
      | none => none
      | some opss => some opss.flatten

/-- Since-inception section: `DataLoader.load_since_inception` assigns
`payload["serverTime"]`, which raises unless the document is a dict; the
importer then discards the payload. -/
def sinceExtract (v : JVal) : Option (List Op) :=
  match v with
  | .obj _ => some []
  | _ => none

/-- The parameter dict built by `importer.insert_trade` from one trade
record (`trade.get(...)` with no default yields NULL for absent keys). -/
def tradeRowOf (trade : JVal) (entry_ms exit_ms : ℤ) : Option TradeRow :=
  match trade with
  | .obj fs =>
    let g := fun k => (lookupField fs k).getD JVal.null
    some ⟨g "id", g "model_id", g "symbol", g "side", null_if_empty (g "trade_type"),
      null_float (g "quantity"), null_float (g "leverage"), null_float (g "confidence"),
      g "entry_price", entry_ms, g "exit_price", exit_ms,
      g "realized_gross_pnl", g "realized_net_pnl", g "total_commission_dollars"⟩
  | _ => none

/-- One record of the trades section: conditional dimension upserts, then
the trade insert. -/
def tradeRecordOps (trade : JVal) : Option (List Op) :=
  match jGetD trade "model_id" (.str "") with
  | none => none
  | some midV =>
    let model_id := strippedStr midV
    let modelOps : List Op := if model_id = "" then [] else [.upModel model_id]
    match jGetD trade "symbol" (.str "") with
    | none => none
    | some symV =>
      let symbol := strippedStr symV
      let symbolOps : List Op := if symbol = "" then [] else [.upSymbol symbol]
      match jGetD trade "entry_time" .null with
      | none => none
      | some etV =>
        match to_ms_float etV with
        | none => none
        | some entry_ms =>
          match jGetD trade "exit_time" .null with
          | none => none
          | some xtV =>
            match to_ms_float xtV with
            | none => none
            | some exit_ms =>
              match tradeRowOf trade entry_ms exit_ms with
              | none => none
              | some row => some (modelOps ++ symbolOps ++ [.insTrade row])

/-- Trades section body (`DataLoader.load_trades` projects `trades`). -/
def tradesExtract (v : JVal) : Option (List Op) :=
  match jGetD v "trades" (.arr []) with
  | none => none
  | some trades =>
    match pyIter trades with
    | none => none
    | some items =>
      match mapOpt tradeRecordOps items with
      | none => none
      | some opss => some opss.flatten

/-- One `(symbol, pos)` entry of a positions account: unconditional symbol
upsert, then the open-position insert with its synthetic id. -/
def posEntryOps (model_id : String) (kv : String × JVal) : Option (List Op) :=
  match kv.2 with
  | .obj fs =>
    let g := fun k => (lookupField fs k).getD JVal.null
    match to_ms_float (g "entry_time") with
    | none => none
    | some entry_ms =>
      some [.upSymbol kv.1,
        .insPos ⟨model_id ++ ":" ++ kv.1 ++ ":" ++ toString entry_ms, model_id, kv.1, "long",
          g "entry_price", g "quantity", null_float (g "leverage"), null_float (g "confidence"),
          entry_ms, "open"⟩]
  | _ => none

/-- One `accountTotals` record of the positions section. -/
def accountOps (model_data : JVal) : Option (List Op) :=
  match jGetD model_data "model_id" (.str "") with
  | none => none
  | some midV =>
    let model_id := strippedStr midV
    let modelOps : List Op := if model_id = "" then [] else [.upModel model_id]
    match jGetD model_data "positions" (.obj []) with
    | none => none
    | some posRaw =>
      let posV := if jTruthy posRaw then posRaw else JVal.obj []
      match jItems posV with
      | none => none
      | some entries =>
        match mapOpt (posEntryOps model_id) entries with
        | none => none
        | some opss => some (modelOps ++ opss.flatten)

/-- Positions section body (`DataLoader.load_positions` projects
`accountTotals`). -/
def positionsExtract (v : JVal) : Option (List Op) :=
  match jGetD v "accountTotals" (.arr []) with
  | none => none
  | some accounts =>
    match pyIter accounts with
    | none => none
    | some items =>
      match mapOpt accountOps items with
      | none => none
      | some opss => some opss.flatten

/-- Python `str(x.get("model_id", "")).strip()` on a dict's fields, shared by both
analytics traversals. -/
def modelIdOfFields (fs : List (String × JVal)) : String :=
  strippedStr ((lookupField fs "model_id").getD (.str ""))

/-- First analytics traversal (dimension rows).  A non-dict item makes
`item.get("model_id", "")` raise `AttributeError`, aborting the pass. -/
def analyticsDimOps (item : JVal) : Option (List Op) :=
  match item with
  | .obj fs =>
    let model_id := modelIdOfFields fs
    some (if model_id = "" then [] else [.upModel model_id])
  | _ => none

/-- Second analytics traversal (raw blobs).  Total: every exception in the
string-probe branch is caught by the blanket `except Exception`. -/
def analyticsBlobOps (blob : JVal) : List Op :=
  match blob with
  | .obj fs =>
    let model_id := modelIdOfFields fs
    if model_id = "" then [] else [.upAnalytics model_id (dumpsJson blob)]
  | .str s =>
    match jsonLoads s with
    | some probe =>
      match probe with
      | .obj fs =>
        let model_id := modelIdOfFields fs
        if model_id = "" then [] else [.upAnalytics model_id (dumpsJson probe)]
      | _ => []
    | none => []
  | _ => []

/-- Analytics section body: the loader's `payload["serverTime"]` assignment
requires a dict; the raw re-read parses the same file, so both traversals
see the same `analytics` list. -/
def analyticsExtract (v : JVal) : Option (List Op) :=
  match v with
  | .obj fs =>
    let alist := (lookupField fs "analytics").getD (.arr [])
    match pyIter alist with
    | none => none
    | some items =>
      match mapOpt analyticsDimOps items with
      | none => none
      | some dimss => some (dimss.flatten ++ (items.map analyticsBlobOps).flatten)
  | _ => none

/-- One message of a conversation. -/
def msgOps (message : JVal) : Option (List Op) :=
  match jGetD message "timestamp" .null with
  | none => none
  | some tsV =>
    match to_ms tsV with
    | none => none
    | some ts =>
      match jGetD message "role" .null with
      | none => none
      | some roleV =>
        match jGetD message "content" (.str "") with
        | none => none
        | some contentV => some [.insMsg (pyOrAssistant roleV) contentV ts]

/-- One conversation record: optional model upsert, a fresh conversation
row, then its messages. -/
def convoOps (convo : JVal) : Option (List Op) :=
  match jGetD convo "model_id" (.str "") with
  | none => none
  | some midV =>
    let model_id := strippedStr midV
    let modelOps : List Op := if model_id = "" then [] else [.upModel model_id]
    match jGetD convo "messages" (.arr []) with
    | none => none
    | some msgsV =>
      match pyIter msgsV with
      | none => none
      | some msgs =>
        match mapOpt msgOps msgs with
        | none => none
        | some msgOpss => some (modelOps ++ [.insConvo model_id] ++ msgOpss.flatten)

/-- Conversations section body (`DataLoader.load_conversations` projects
`conversations`). -/
def conversationsExtract (v : JVal) : Option (List Op) :=
  match jGetD v "conversations" (.arr []) with
  | none => none
  | some convs =>
    match pyIter convs with
    | none => none
    | some items =>
      match mapOpt convoOps items with
      | none => none
      | some opss => some opss.flatten

/-- A snapshot file on disk: absent (`FileNotFoundError`), unreadable or
malformed (any other I/O or parse failure), or a parsed document. -/
inductive FileContent where
  | missing
  | malformed
  | json (v : JVal)

/-- The `--data` directory. -/
structure DataDir where
  files : List (String × FileContent)

def DataDir.read (dir : DataDir) (name : String) : FileContent :=
  match dir.files.find? (fun p => p.1 == name) with
  | some p => p.2
  | none => .missing

/-- One snapshot section: its file, the warning logged when the file is
missing, and its body. -/
structure SectionSpec where
  file : String
  warn : String
  extract : JVal → Option (List Op)

/-- One `try: ... except FileNotFoundError: logger.warning(...)` block of
`run_import`. -/
def sectionRun (dir : DataDir) (s : SectionSpec) (db : DB) : Option (DB × List String) :=
  match dir.read s.file with
  | .missing => some (db, [s.warn])
  | .malformed => none
  | .json v =>
    match s.extract v with
    | none => none
    | some ops =>
      match applyOps db ops with
      | none => none
      | some db' => some (db', [])

/-- The six snapshot sections of `run_import`, in source order. -/
def sections : List SectionSpec :=
  [⟨"crypto-prices.json", "skip crypto prices: file missing", pricesExtract⟩,
   ⟨"since-inception-values.json", "skip since-inception: file missing", sinceExtract⟩,
   ⟨"trades.json", "skip trades: file missing", tradesExtract⟩,
   ⟨"positions.json", "skip positions: file missing", positionsExtract⟩,
   ⟨"analytics.json", "skip analytics: file missing", analyticsExtract⟩,
   ⟨"conversations.json", "skip conversations: file missing", conversationsExtract⟩]

def runSections : List SectionSpec → DB → DataDir → Option (DB × List String)
  | [], db, _ => some (db, [])
  | s :: rest, db, dir =>
    match sectionRun dir s db with
    | none => none
    | some (db', w) =>
      match runSections rest db' dir with
      | none => none
      | some (db'', ws) => some (db'', w ++ ws)

/-- Embedding of `importer._truncate_tables`: `TRUNCATE ... RESTART IDENTITY CASCADE`. -/
def truncate_tables (_db : DB) : DB := emptyDB

/-- Embedding of `importer.run_import`: optional truncate pre-step, then the six sections
in order.  `none` models a fatal abort; on success the accumulated
warning-level log lines are returned with the final store. -/
def run_import (truncate : Bool) (dir : DataDir) (db : DB) : Option (DB × List String) :=
  runSections sections (if truncate then truncate_tables db else db) dir

/-- Modelled from the spec: the claimed normalizer for numeric timestamps,
`round(t*1000)` below the `1e12` threshold and `round(t)` above it
(compare with the code's `to_ms`, which truncates via `int(...)`). -/
def spec_normalize (t : ℚ) : ℤ :=
  if t < 1000000000000 then round (t * 1000) else round t

/-- A fallback `TradeRow` (only used to name concrete rows totally). -/
def defaultTradeRow : TradeRow :=
  ⟨JVal.null, JVal.null, JVal.null, JVal.null, JVal.null, none, none, none,
   JVal.null, 0, JVal.null, 0, JVal.null, JVal.null, JVal.null⟩

/-- Concrete trade record with a whitespace-only `trade_type` (C9). -/
def c9fields : List (String × JVal) := [("id", JVal.str "t1"), ("trade_type", JVal.str "   ")]

def c9row : TradeRow :=
  match tradeRowOf (JVal.obj c9fields) 0 0 with
  | some r => r
  | none => defaultTradeRow

/-- The claim C8 positions payload, as a data directory. -/
def c8dir : DataDir :=
  ⟨[("positions.json", FileContent.json (JVal.obj [("accountTotals", JVal.arr [JVal.obj
      [("model_id", JVal.str "gpt-5"),
       ("positions", JVal.obj [("BTC", JVal.obj
          [("entry_price", JVal.num 100), ("quantity", JVal.num 1),
           ("entry_time", JVal.num 1700000000)])])]])]))]⟩

/-- A model-analytics entry as a JSON-encoded string. -/
def c5payload : String := "\x7b\"model_id\": \"m1\"\x7d"

/-- Analytics snapshot whose single entry is a JSON-encoded string. -/
def c5strdir : DataDir :=
  ⟨[("analytics.json", FileContent.json
      (JVal.obj [("analytics", JVal.arr [JVal.str c5payload])]))]⟩

/-- The same entry as a native JSON object. -/
def c5objdir : DataDir :=
  ⟨[("analytics.json", FileContent.json
      (JVal.obj [("analytics", JVal.arr [JVal.obj [("model_id", JVal.str "m1")]])]))]⟩

/-- Model upserts issued by an op list, as (key, display name) pairs. -/
def modelPairsOf : List Op → List (String × String)
  | [] => []
  | .upModel m :: rest => (pyStrip m, m) :: modelPairsOf rest
  | _ :: rest => modelPairsOf rest

/-- Symbol inserts issued by an op list (stripped, as `upsert_symbol` does). -/
def symListOf : List Op → List String
  | [] => []
  | .upSymbol s :: rest => pyStrip s :: symListOf rest
  | _ :: rest => symListOf rest

/-- Price upserts issued by an op list. -/
def pricePairsOf : List Op → List (String × (ℚ × ℤ))
  | [] => []
  | .upPrice sym p ts :: rest => (sym, (p, ts)) :: pricePairsOf rest
  | _ :: rest => pricePairsOf rest

/-- Trade inserts issued by an op list. -/
def tradeRowsOf : List Op → List TradeRow
  | [] => []
  | .insTrade r :: rest => r :: tradeRowsOf rest
  | _ :: rest => tradeRowsOf rest

/-- Position inserts issued by an op list. -/
def posRowsOf : List Op → List PositionRow
  | [] => []
  | .insPos r :: rest => r :: posRowsOf rest
  | _ :: rest => posRowsOf rest

/-- Analytics upserts issued by an op list. -/
def anPairsOf : List Op → List (String × String)
  | [] => []
  | .upAnalytics m p :: rest => (m, p) :: anPairsOf rest
  | _ :: rest => anPairsOf rest

/-- Number of conversation inserts in an op list. -/
def convoCountOf : List Op → ℕ
  | [] => 0
  | .insConvo _ :: rest => convoCountOf rest + 1
  | _ :: rest => convoCountOf rest

/-- Number of message inserts in an op list. -/
def msgCountOf : List Op → ℕ
  | [] => 0
  | .insMsg _ _ _ :: rest => msgCountOf rest + 1
  | _ :: rest => msgCountOf rest

/-- Ops of one section, given the directory: a missing file contributes no
statements, a malformed one fails, a parsed document is processed by the
section body. -/
def sectionOps (dir : DataDir) (s : SectionSpec) : Option (List Op) :=
  match dir.read s.file with
  | .missing => some []
  | .malformed => none
  | .json v => s.extract v

/-- Concatenated ops of a list of sections. -/
def sectionsOps : List SectionSpec → DataDir → Option (List Op)
  | [], _ => some []
  | s :: rest, dir =>
    match sectionOps dir s with
    | none => none
    | some ops =>
      match sectionsOps rest dir with
      | none => none
      | some l => some (ops ++ l)

/-- Witness directory for re-import: one conversation with one message. -/
def c1dir : DataDir :=
  ⟨[("conversations.json", FileContent.json (JVal.obj [("conversations", JVal.arr [JVal.obj
      [("model_id", JVal.str "m1"),
       ("messages", JVal.arr [JVal.obj [("content", JVal.str "hi")]])]])]))]⟩

/-- Store after the first pass over `c1dir`. -/
def c1db1 : DB :=
  match run_import false c1dir emptyDB with
  | some p => p.1
  | none => emptyDB

def c1w1 : List String :=
  match run_import false c1dir emptyDB with
  | some p => p.2
  | none => []

/-- Store after the second pass over `c1dir`. -/
def c1db2 : DB :=
  match run_import false c1dir c1db1 with
  | some p => p.1
  | none => emptyDB

def c1w2 : List String :=
  match run_import false c1dir c1db1 with
  | some p => p.2
  | none => []

/-- Referential soundness of one trade row against the dimension tables:
the upserted model/symbol for a trade is the stripped string form of the
raw stored value, so the guarantee is phrased through `strippedStr`; rows
whose field is NULL or strips to the empty string reference nothing. -/
def TradeRefOK (db : DB) (r : TradeRow) : Prop :=
  (r.model_id ≠ JVal.null → strippedStr r.model_id ≠ "" →
    hasKeyA db.models (strippedStr r.model_id) = true)
  ∧ (r.symbol ≠ JVal.null → strippedStr r.symbol ≠ "" →
    strippedStr r.symbol ∈ db.symbols)

/-- Referential soundness of one position row (its `model_id` is already
stripped; its raw symbol is upserted in stripped form unconditionally). -/
def PosRefOK (db : DB) (r : PositionRow) : Prop :=
  (r.model_id ≠ "" → hasKeyA db.models r.model_id = true) ∧ pyStrip r.symbol ∈ db.symbols

/-- Referential integrity of the whole store: every dependent row references
dimension rows that exist (in the qualified sense above). -/
def Inv (db : DB) : Prop :=
  (∀ r ∈ db.trades, TradeRefOK db r)
  ∧ (∀ r ∈ db.positions, PosRefOK db r)
  ∧ (∀ p ∈ db.model_analytics, hasKeyA db.models p.1 = true)
  ∧ (∀ c ∈ db.conversations, c.2 ≠ "" → hasKeyA db.models c.2 = true)

/-- Dimension tables of `a` are contained in those of `b`. -/
def DimLe (a b : DB) : Prop :=
  (∀ m, hasKeyA a.models m = true → hasKeyA b.models m = true)
  ∧ (∀ s, s ∈ a.symbols → s ∈ b.symbols)

/-- A statement sequence preserves referential integrity. -/
def InvPres (ops : List Op) : Prop :=
  ∀ db db', Inv db → applyOps db ops = some db' → Inv db'

/-- C2 counterexample directory: one conversation record with no
`model_id`. -/
def c2dir : DataDir :=
  ⟨[("conversations.json", FileContent.json
      (JVal.obj [("conversations", JVal.arr [JVal.obj []])]))]⟩

/-- C2 witness directory: a trade and a position referencing models and
symbols. -/
def c2wdir : DataDir :=
  ⟨[("trades.json", FileContent.json (JVal.obj [("trades", JVal.arr [JVal.obj
      [("id", JVal.str "t1"), ("model_id", JVal.str " m1 "), ("symbol", JVal.str "BTC")]])])),
    ("positions.json", FileContent.json (JVal.obj [("accountTotals", JVal.arr [JVal.obj
      [("model_id", JVal.str "m2"),
       ("positions", JVal.obj [("ETH", JVal.obj [("entry_price", JVal.num 10),
          ("quantity", JVal.num 2), ("entry_time", JVal.num 1700000001)])])]])]))]⟩

/-- Store produced by the pass over `c2wdir`. -/
def c2wdb : DB :=
  match run_import false c2wdir emptyDB with
  | some p => p.1
  | none => emptyDB

def c2wws : List String :=
  match run_import false c2wdir emptyDB with
  | some p => p.2
  | none => []

/-! ### Theorems -/

section AssocLemmas

variable {β : Type}

theorem hasKeyA_iff {l : List (String × β)} {k : String} :
    hasKeyA l k = true ↔ ∃ p ∈ l, p.1 = k := by
  simp [hasKeyA, List.any_eq_true]

theorem hasKeyA_of_mem {l : List (String × β)} {p : String × β} (h : p ∈ l) :
    hasKeyA l p.1 = true :=
  hasKeyA_iff.mpr ⟨p, h, rfl⟩

theorem hasKeyA_upsert_self {l : List (String × β)} (k : String) (v : β) :
    hasKeyA (upsertAssoc k v l) k = true := by
  by_cases h : hasKeyA l k
  · rcases hasKeyA_iff.mp h with ⟨p, hp, hk⟩
    refine hasKeyA_iff.mpr ?_
    rw [upsertAssoc, if_pos h]
    exact ⟨(k, v), List.mem_map.mpr ⟨p, hp, by simp [hk]⟩, rfl⟩
  · refine hasKeyA_iff.mpr ?_
    rw [upsertAssoc, if_neg h]
    exact ⟨(k, v), by simp, rfl⟩

theorem hasKeyA_upsert_mono {l : List (String × β)} {k' : String} (k : String) (v : β)
    (h : hasKeyA l k' = true) : hasKeyA (upsertAssoc k v l) k' = true := by
  rcases hasKeyA_iff.mp h with ⟨p, hp, hk⟩
  refine hasKeyA_iff.mpr ?_
  rw [upsertAssoc]
  by_cases hc : hasKeyA l k
  · rw [if_pos hc]
    by_cases hpk : p.1 = k
    · exact ⟨(k, v), List.mem_map.mpr ⟨p, hp, by simp [hpk]⟩, by rw [← hk, hpk]⟩
    · exact ⟨p, List.mem_map.mpr ⟨p, hp, by simp [hpk]⟩, hk⟩
  · rw [if_neg hc]
    exact ⟨p, by simp [hp], hk⟩

theorem hasKeyA_applyUpserts_mono :
    ∀ (ps : List (String × β)) {l : List (String × β)} {k' : String},
      hasKeyA l k' = true → hasKeyA (applyUpserts ps l) k' = true
  | [], _, _, h => h
  | p :: rest, l, k', h =>
    hasKeyA_applyUpserts_mono rest (hasKeyA_upsert_mono p.1 p.2 h)

theorem hasKeyA_applyUpserts_all :
    ∀ (ps : List (String × β)) (l : List (String × β)) (p : String × β), p ∈ ps →
      hasKeyA (applyUpserts ps l) p.1 = true
  | [], _, _, h => absurd h (List.not_mem_nil _)
  | q :: rest, l, p, h => by
    rcases List.mem_cons.mp h with rfl | h2
    · exact hasKeyA_applyUpserts_mono rest (hasKeyA_upsert_self p.1 p.2)
    · exact hasKeyA_applyUpserts_all rest _ p h2

theorem mem_upsertAssoc {l : List (String × β)} {k : String} {v : β} {p : String × β}
    (h : p ∈ upsertAssoc k v l) : p ∈ l ∨ p.1 = k := by
  rw [upsertAssoc] at h
  by_cases hc : hasKeyA l k
  · rw [if_pos hc] at h
    rcases List.mem_map.mp h with ⟨q, hq, he⟩
    by_cases hqk : q.1 = k
    · right; rw [← he]; simp [hqk]
    · left; rw [← he]; simpa [hqk] using hq
  · rw [if_neg hc] at h
    rcases List.mem_append.mp h with h | h
    · exact Or.inl h
    · right; simp at h; simp [h]

theorem mem_upsert_ne {l : List (String × β)} {c k : String} {d v : β} (hne : c ≠ k) :
    (k, v) ∈ upsertAssoc c d l ↔ (k, v) ∈ l := by
  rw [upsertAssoc]
  by_cases hc : hasKeyA l c
  · rw [if_pos hc]
    constructor
    · intro h
      rcases List.mem_map.mp h with ⟨q, hq, he⟩
      by_cases hqc : q.1 = c
      · rw [if_pos hqc] at he
        exact absurd (congrArg Prod.fst he) (by simpa using hne)
      · rw [if_neg hqc] at he; rwa [he] at hq
    · intro h
      refine List.mem_map.mpr ⟨(k, v), h, ?_⟩
      rw [if_neg (by simpa using hne.symm)]
  · rw [if_neg hc]
    constructor
    · intro h
      rcases List.mem_append.mp h with h | h
      · exact h
      · simp at h
        exact absurd h.1.symm hne
    · intro h
      exact List.mem_append.mpr (Or.inl h)

theorem mem_upsert_self_eq {l : List (String × β)} {k : String} {w v : β}
    (h : (k, v) ∈ upsertAssoc k w l) : v = w := by
  rw [upsertAssoc] at h
  by_cases hc : hasKeyA l k
  · rw [if_pos hc] at h
    rcases List.mem_map.mp h with ⟨q, hq, he⟩
    by_cases hqk : q.1 = k
    · rw [if_pos hqk] at he
      injection he with h1 h2
      exact h2.symm
    · rw [if_neg hqk] at he
      exact absurd (congrArg Prod.fst he) (by simpa using hqk)
  · rw [if_neg hc] at h
    rcases List.mem_append.mp h with h | h
    · exact absurd (hasKeyA_of_mem h) (by simpa using hc)
    · simpa using (List.mem_singleton.mp h)

theorem lastVal_cons_none {ps : List (String × β)} {q : String × β} {k : String}
    (h : lastVal (q :: ps) k = none) : lastVal ps k = none ∧ q.1 ≠ k := by
  rw [lastVal] at h
  rcases hl : lastVal ps k with _ | v
  · rw [hl] at h
    refine ⟨rfl, ?_⟩
    intro he
    rw [if_pos he] at h
    exact Option.noConfusion h
  · rw [hl] at h
    exact Option.noConfusion h

theorem mem_applyUpserts_of_lastVal_none :
    ∀ (ps : List (String × β)) {l : List (String × β)} {k : String} {v : β},
      lastVal ps k = none → ((k, v) ∈ applyUpserts ps l ↔ (k, v) ∈ l)
  | [], _, _, _, _ => Iff.rfl
  | q :: rest, l, k, v, h => by
    obtain ⟨h1, h2⟩ := lastVal_cons_none h
    rw [applyUpserts, mem_applyUpserts_of_lastVal_none rest h1, mem_upsert_ne h2]

theorem mem_applyUpserts_lastVal :
    ∀ (ps : List (String × β)) {l : List (String × β)} {k : String} {v w : β},
      (k, v) ∈ applyUpserts ps l → lastVal ps k = some w → v = w
  | [], _, _, _, _, _, h => Option.noConfusion h
  | q :: rest, l, k, v, w, hm, hl => by
    rw [applyUpserts] at hm
    rcases hr : lastVal rest k with _ | w2
    · rw [lastVal, hr] at hl
      by_cases hq : q.1 = k
      · rw [if_pos hq] at hl
        obtain rfl : q.2 = w := Option.some.inj hl
        have hm2 := (mem_applyUpserts_of_lastVal_none rest hr).mp hm
        obtain ⟨q1, q2⟩ := q
        subst hq
        exact mem_upsert_self_eq hm2
      · rw [if_neg hq] at hl
        exact Option.noConfusion hl
    · rw [lastVal, hr] at hl
      obtain rfl : w2 = w := Option.some.inj hl
      exact mem_applyUpserts_lastVal rest hm hr

theorem upsertAssoc_of_hasKey {l : List (String × β)} {k : String} (v : β)
    (h : hasKeyA l k = true) :
    upsertAssoc k v l = l.map (fun p => if p.1 = k then (k, v) else p) := by
  rw [upsertAssoc, if_pos h]

theorem applyUpserts_eq_map :
    ∀ (ps : List (String × β)) (l : List (String × β)),
      (∀ p ∈ ps, hasKeyA l p.1 = true) →
      applyUpserts ps l = l.map (overrideLast ps)
  | [], l, _ => by
    have h1 : ∀ p ∈ l, overrideLast ([] : List (String × β)) p = id p := fun p _ => rfl
    rw [applyUpserts, List.map_congr_left h1, List.map_id]
  | q :: rest, l, h => by
    rw [applyUpserts, upsertAssoc_of_hasKey q.2 (h q (List.mem_cons_self q rest))]
    rw [applyUpserts_eq_map rest _ ?_]
    · rw [List.map_map]
      apply List.map_congr_left
      intro p _
      simp only [Function.comp_apply, overrideLast, lastVal]
      rcases hr : lastVal rest p.1 with _ | w
      · by_cases hq : p.1 = q.1
        · rw [if_pos hq]
          simp only [hq]
          rw [show lastVal rest q.1 = none from hq ▸ hr]
          simp
        · rw [if_neg hq]
          rw [hr]
          have : ¬ q.1 = p.1 := fun he => hq he.symm
          simp [this]
      · by_cases hq : p.1 = q.1
        · rw [if_pos hq]
          simp only [hq]
          rw [show lastVal rest q.1 = some w from hq ▸ hr]
        · rw [if_neg hq, hr]
    · intro p hp
      rcases hasKeyA_iff.mp (h p (List.mem_cons_of_mem q hp)) with ⟨r, hr, hk⟩
      refine hasKeyA_iff.mpr ?_
      by_cases hrq : r.1 = q.1
      · exact ⟨(q.1, q.2), List.mem_map.mpr ⟨r, hr, by simp [hrq]⟩, by rw [← hk, hrq]⟩
      · exact ⟨r, List.mem_map.mpr ⟨r, hr, by simp [hrq]⟩, hk⟩

theorem map_overrideLast_fix {ps l : List (String × β)}
    (h : ∀ p ∈ l, ∀ w, lastVal ps p.1 = some w → p.2 = w) :
    l.map (overrideLast ps) = l := by
  have : ∀ p ∈ l, overrideLast ps p = p := by
    intro p hp
    rw [overrideLast]
    rcases hl : lastVal ps p.1 with _ | w
    · rfl
    · rw [← h p hp w hl]
  calc l.map (overrideLast ps) = l.map id := List.map_congr_left this
    _ = l := List.map_id l

theorem applyUpserts_idem (ps l : List (String × β)) :
    applyUpserts ps (applyUpserts ps l) = applyUpserts ps l := by
  rw [applyUpserts_eq_map ps _ (fun p hp => hasKeyA_applyUpserts_all ps l p hp)]
  exact map_overrideLast_fix (fun p hp w hw => by
    obtain ⟨p1, p2⟩ := p
    exact mem_applyUpserts_lastVal ps hp hw)

end AssocLemmas

section InsertLemmas

variable {ρ : Type} {keyEq : ρ → ρ → Bool}

theorem insertKeyed_of_has {l : List ρ} {r : ρ} (h : hasKeyR keyEq l r = true) :
    insertKeyed keyEq r l = l := by
  rw [insertKeyed, if_pos h]

theorem hasKeyR_insert_self {l : List ρ} {r : ρ} (hrefl : keyEq r r = true) :
    hasKeyR keyEq (insertKeyed keyEq r l) r = true := by
  rw [insertKeyed]
  by_cases h : hasKeyR keyEq l r
  · rw [if_pos h]; exact h
  · rw [if_neg h]
    simp only [hasKeyR, List.any_eq_true] at *
    exact ⟨r, by simp, hrefl⟩

theorem hasKeyR_insert_mono {l : List ρ} {r x : ρ} (h : hasKeyR keyEq l x = true) :
    hasKeyR keyEq (insertKeyed keyEq r l) x = true := by
  rw [insertKeyed]
  by_cases hc : hasKeyR keyEq l r
  · rw [if_pos hc]; exact h
  · rw [if_neg hc]
    simp only [hasKeyR, List.any_eq_true] at *
    rcases h with ⟨y, hy, he⟩
    exact ⟨y, by simp [hy], he⟩

theorem hasKeyR_applyInserts_mono :
    ∀ (rs : List ρ) {l : List ρ} {x : ρ},
      hasKeyR keyEq l x = true → hasKeyR keyEq (applyInserts keyEq rs l) x = true
  | [], _, _, h => h
  | r :: rest, l, x, h => hasKeyR_applyInserts_mono rest (hasKeyR_insert_mono h)

theorem hasKeyR_applyInserts_all :
    ∀ (rs : List ρ) (l : List ρ) (r : ρ), r ∈ rs → keyEq r r = true →
      hasKeyR keyEq (applyInserts keyEq rs l) r = true
  | [], _, _, h, _ => absurd h (List.not_mem_nil _)
  | q :: rest, l, r, h, hrefl => by
    rcases List.mem_cons.mp h with rfl | h2
    · exact hasKeyR_applyInserts_mono rest (hasKeyR_insert_self hrefl)
    · exact hasKeyR_applyInserts_all rest _ r h2 hrefl

theorem applyInserts_of_has_all :
    ∀ (rs : List ρ) (l : List ρ), (∀ r ∈ rs, hasKeyR keyEq l r = true) →
      applyInserts keyEq rs l = l
  | [], _, _ => rfl
  | q :: rest, l, h => by
    rw [applyInserts, insertKeyed_of_has (h q (List.mem_cons_self q rest))]
    exact applyInserts_of_has_all rest l (fun r hr => h r (List.mem_cons_of_mem q hr))

theorem applyInserts_idem (rs l : List ρ) (hrefl : ∀ r ∈ rs, keyEq r r = true) :
    applyInserts keyEq rs (applyInserts keyEq rs l) = applyInserts keyEq rs l :=
  applyInserts_of_has_all rs _
    (fun r hr => hasKeyR_applyInserts_all rs l r hr (hrefl r hr))

theorem mem_insertKeyed {l : List ρ} {r x : ρ} (h : x ∈ insertKeyed keyEq r l) :
    x ∈ l ∨ x = r := by
  rw [insertKeyed] at h
  by_cases hc : hasKeyR keyEq l r
  · rw [if_pos hc] at h; exact Or.inl h
  · rw [if_neg hc] at h
    rcases List.mem_append.mp h with h | h
    · exact Or.inl h
    · exact Or.inr (List.mem_singleton.mp h)

theorem mem_insertKeyed_self_or {l : List ρ} (r : ρ) :
    insertKeyed keyEq r l = l ∨ insertKeyed keyEq r l = l ++ [r] := by
  rw [insertKeyed]
  by_cases hc : hasKeyR keyEq l r
  · rw [if_pos hc]; exact Or.inl rfl
  · rw [if_neg hc]; exact Or.inr rfl

end InsertLemmas

theorem insert_trade_cases (db : DB) (r : TradeRow) :
    insert_trade db r = none ∨
    insert_trade db r = some { db with trades := insertKeyed tradeKeyEq r db.trades } := by
  cases hid : r.id <;> simp [insert_trade, hid]

/-- What a successful statement sequence does to each table: the keyed
tables are exactly the corresponding upsert/insert sequences applied in
order, and conversations/messages grow by the number of inserts. -/
theorem applyOps_spec :
    ∀ (L : List Op) (db db' : DB), applyOps db L = some db' →
      db'.models = applyUpserts (modelPairsOf L) db.models
      ∧ db'.symbols = applyInserts symKeyEq (symListOf L) db.symbols
      ∧ db'.price_latest = applyUpserts (pricePairsOf L) db.price_latest
      ∧ db'.trades = applyInserts tradeKeyEq (tradeRowsOf L) db.trades
      ∧ db'.positions = applyInserts posKeyEq (posRowsOf L) db.positions
      ∧ db'.model_analytics = applyUpserts (anPairsOf L) db.model_analytics
      ∧ db'.conversations.length = db.conversations.length + convoCountOf L
      ∧ db'.conversation_messages.length = db.conversation_messages.length + msgCountOf L
  | [], db, db', h => by
    cases h
    exact ⟨rfl, rfl, rfl, rfl, rfl, rfl, rfl, rfl⟩
  | .upModel m :: L, db, db', h => by
    simp only [applyOps, applyOp] at h
    obtain ⟨h1, h2, h3, h4, h5, h6, h7, h8⟩ := applyOps_spec L _ db' h
    exact ⟨h1, h2, h3, h4, h5, h6, h7, h8⟩
  | .upSymbol s :: L, db, db', h => by
    simp only [applyOps, applyOp] at h
    obtain ⟨h1, h2, h3, h4, h5, h6, h7, h8⟩ := applyOps_spec L _ db' h
    exact ⟨h1, h2, h3, h4, h5, h6, h7, h8⟩
  | .upPrice sym p ts :: L, db, db', h => by
    simp only [applyOps, applyOp] at h
    obtain ⟨h1, h2, h3, h4, h5, h6, h7, h8⟩ := applyOps_spec L _ db' h
    exact ⟨h1, h2, h3, h4, h5, h6, h7, h8⟩
  | .insTrade r :: L, db, db', h => by
    simp only [applyOps, applyOp] at h
    rcases insert_trade_cases db r with hc | hc
    · rw [hc] at h
      exact Option.noConfusion h
    · rw [hc] at h
      obtain ⟨h1, h2, h3, h4, h5, h6, h7, h8⟩ := applyOps_spec L _ db' h
      exact ⟨h1, h2, h3, h4, h5, h6, h7, h8⟩
  | .insPos r :: L, db, db', h => by
    simp only [applyOps, applyOp] at h
    obtain ⟨h1, h2, h3, h4, h5, h6, h7, h8⟩ := applyOps_spec L _ db' h
    exact ⟨h1, h2, h3, h4, h5, h6, h7, h8⟩
  | .upAnalytics m p :: L, db, db', h => by
    simp only [applyOps, applyOp] at h
    obtain ⟨h1, h2, h3, h4, h5, h6, h7, h8⟩ := applyOps_spec L _ db' h
    exact ⟨h1, h2, h3, h4, h5, h6, h7, h8⟩
  | .insConvo m :: L, db, db', h => by
    simp only [applyOps, applyOp] at h
    obtain ⟨h1, h2, h3, h4, h5, h6, h7, h8⟩ := applyOps_spec L _ db' h
    refine ⟨h1, h2, h3, h4, h5, h6, ?_, h8⟩
    rw [h7]
    simp only [insert_conversation, List.length_append, List.length_singleton, convoCountOf]
    omega
  | .insMsg role content ts :: L, db, db', h => by
    simp only [applyOps, applyOp] at h
    obtain ⟨h1, h2, h3, h4, h5, h6, h7, h8⟩ := applyOps_spec L _ db' h
    refine ⟨h1, h2, h3, h4, h5, h6, h7, ?_⟩
    rw [h8]
    simp only [insert_conversation_message, List.length_append, List.length_singleton,
      msgCountOf]
    omega

theorem applyOps_append :
    ∀ (xs ys : List Op) (db : DB),
      applyOps db (xs ++ ys)
        = match applyOps db xs with
          | none => none
          | some d => applyOps d ys
  | [], ys, db => rfl
  | op :: xs, ys, db => by
    rw [List.cons_append]
    simp only [applyOps]
    cases applyOp db op
    · rfl
    · exact applyOps_append xs ys _

/-- A successful pass factors into the directory-determined statement list
followed by its application. -/
theorem runSections_factor :
    ∀ (l : List SectionSpec) (db : DB) (dir : DataDir) (db' : DB) (w : List String),
      runSections l db dir = some (db', w) →
      ∃ L, sectionsOps l dir = some L ∧ applyOps db L = some db'
  | [], db, dir, db', w, h => by
    cases h
    exact ⟨[], rfl, rfl⟩
  | s :: rest, db, dir, db', w, h => by
    rcases hr : dir.read s.file with _ | _ | v
    · simp only [runSections, sectionRun, hr] at h
      rcases h2 : runSections rest db dir with _ | p
      · rw [h2] at h
        exact Option.noConfusion h
      · obtain ⟨db2, ws⟩ := p
        rw [h2] at h
        cases h
        obtain ⟨L, hs, ha⟩ := runSections_factor rest db dir _ _ h2
        exact ⟨L, by simp [sectionsOps, sectionOps, hr, hs], ha⟩
    · simp [runSections, sectionRun, hr] at h
    · rcases he : s.extract v with _ | ops
      · simp [runSections, sectionRun, hr, he] at h
      · rcases ha : applyOps db ops with _ | db1
        · simp [runSections, sectionRun, hr, he, ha] at h
        · simp only [runSections, sectionRun, hr, he, ha] at h
          rcases h2 : runSections rest db1 dir with _ | p
          · rw [h2] at h
            exact Option.noConfusion h
          · obtain ⟨db2, ws⟩ := p
            rw [h2] at h
            cases h
            obtain ⟨L, hs, ha2⟩ := runSections_factor rest db1 dir _ _ h2
            refine ⟨ops ++ L, by simp [sectionsOps, sectionOps, hr, he, hs], ?_⟩
            rw [applyOps_append, ha]
            exact ha2

mutual

theorem jeq_refl : ∀ a, jeq a a = true
  | .null => by simp [jeq]
  | .bool b => by simp [jeq]
  | .num q => by simp [jeq]
  | .str s => by simp [jeq]
  | .arr xs => by simpa [jeq] using jeqList_refl xs
  | .obj fs => by simpa [jeq] using jeqFields_refl fs
termination_by a => sizeOf a

theorem jeqList_refl : ∀ l, jeqList l l = true
  | [] => by simp [jeqList]
  | a :: rest => by simp [jeqList, jeq_refl a, jeqList_refl rest]
termination_by l => sizeOf l

theorem jeqFields_refl : ∀ l, jeqFields l l = true
  | [] => by simp [jeqFields]
  | (k, v) :: rest => by simp [jeqFields, jeq_refl v, jeqFields_refl rest]
termination_by l => sizeOf l

end

/-- C3 (counterexample): the claim says `to_ms` returns `round(t*1000)` for
every numeric `t` below the threshold, but the code truncates with `int()`:
at `t = 3/64` (exactly representable, product `46.875` exact) the code
yields `46` while rounding yields `47`. -/
theorem C3_counterexample :
    to_ms (JVal.num (3 / 64 : ℚ)) ≠ some (spec_normalize (3 / 64 : ℚ)) := by
  have h1 : to_ms (JVal.num (3 / 64 : ℚ)) = some 46 := by with_unfolding_all rfl
  have h2 : spec_normalize (3 / 64 : ℚ) = 47 := by
    simp only [spec_normalize, if_pos (by norm_num : (3 / 64 : ℚ) < 1000000000000)]
    norm_num [round_eq]
  rw [h1, h2]
  simp

/-- C3 (amended): for every numeric or numeric-string timestamp `t`, `to_ms`
returns the truncation toward zero (`int(...)`) of `t*1000` when
`t < 1e12`, and of `t` itself otherwise; the `1e12` comparison is applied to
the (signed) value, exactly as in the code. -/
theorem C3_to_ms_threshold :
    (∀ q : ℚ, to_ms (JVal.num q)
       = some (if q < 1000000000000 then pyTrunc (q * 1000) else pyTrunc q))
    ∧ (∀ (s : String) (q : ℚ), pyFloatOfStr (pyStrip s) = some q →
        to_ms (JVal.str s)
          = some (if q < 1000000000000 then pyTrunc (q * 1000) else pyTrunc q)) := by
  constructor
  · intro q; rfl
  · intro s q h
    have hne : pyStrip s ≠ "" := by
      intro he
      rw [he, show pyFloatOfStr "" = none from rfl] at h
      exact Option.noConfusion h
    simp only [to_ms, if_neg hne, h]

/-- C3 (witness for the amended theorem at a concrete numeric string). -/
theorem C3_witness :
    to_ms (JVal.str "1700000000")
      = some (if (1700000000 : ℚ) < 1000000000000
          then pyTrunc ((1700000000 : ℚ) * 1000) else pyTrunc (1700000000 : ℚ)) :=
  C3_to_ms_threshold.2 "1700000000" 1700000000 (by with_unfolding_all rfl)

/-- C4 (counterexample): `to_ms` does raise on a wrapper object whose
`$numberInt` value is not an integer literal — `int("abc")` raises
`ValueError` outside every `try` block. -/
theorem C4_counterexample :
    to_ms (JVal.obj [("$numberInt", JVal.str "abc")]) = none := rfl

/-- C4 (amended): `to_ms` never raises except through the `$numberInt`
wrapper arm with a non-integer payload; absent input yields 0 and a string
that parses neither as a number nor as ISO-8601 yields 0.  (Numbers are the
finite rationals; CPython additionally raises `OverflowError` on infinite
floats, which have no value in this model.) -/
theorem C4_to_ms_total :
    (∀ v : JVal, to_ms v = none →
      ∃ fs w, v = JVal.obj fs ∧ lookupField fs "$numberInt" = some w ∧ pyIntOf w = none)
    ∧ to_ms JVal.null = some 0
    ∧ (∀ s : String, pyFloatOfStr (pyStrip s) = none →
        parseIsoStr (pyReplaceZ (pyStrip s)) = none → to_ms (JVal.str s) = some 0) := by
  refine ⟨?_, rfl, ?_⟩
  · intro v h
    match v with
    | .null => exact absurd h (by simp [to_ms])
    | .bool b => exact absurd h (by simp [to_ms])
    | .num q => exact absurd h (by simp [to_ms])
    | .arr xs => exact absurd h (by simp [to_ms])
    | .str s =>
      exfalso
      by_cases he : pyStrip s = ""
      · simp [to_ms, he] at h
      · rcases hf : pyFloatOfStr (pyStrip s) with _ | q
        · rcases hi : parseIsoStr (pyReplaceZ (pyStrip s)) with _ | secs
          · simp [to_ms, he, hf, hi] at h
          · simp [to_ms, he, hf, hi] at h
        · simp [to_ms, he, hf] at h
    | .obj fs =>
      rcases hl : lookupField fs "$numberInt" with _ | w
      · simp [to_ms, hl] at h
      · rcases hi : pyIntOf w with _ | n
        · exact ⟨fs, w, rfl, hl, hi⟩
        · simp [to_ms, hl, hi] at h
  · intro s hf hiso
    by_cases he : pyStrip s = ""
    · simp [to_ms, he]
    · simp [to_ms, he, hf, hiso]

/-- C4 (witness at a concrete unparseable string). -/
theorem C4_witness : to_ms (JVal.str "abc") = some 0 :=
  C4_to_ms_total.2.2 "abc" (by with_unfolding_all rfl) (by with_unfolding_all rfl)

/-- C7: `null_float` yields NULL exactly when the value does not parse as a
float or parses to exactly zero, and yields the parsed float otherwise; in
particular `null_float(0)`, `null_float("0")` (and `0.0`, which is the same
rational) are NULL, `null_float("abc")` is NULL, and `null_float(5)` is
`5.0`. -/
theorem C7_null_float_contract :
    (∀ v : JVal, null_float v = none ↔ (pyFloatOf v = none ∨ pyFloatOf v = some 0))
    ∧ (∀ (v : JVal) (q : ℚ), pyFloatOf v = some q → q ≠ 0 → null_float v = some q)
    ∧ null_float (JVal.num 0) = none
    ∧ null_float (JVal.str "0") = none
    ∧ null_float (JVal.num 5) = some 5
    ∧ null_float (JVal.str "abc") = none := by
  refine ⟨?_, ?_, by with_unfolding_all rfl, by with_unfolding_all rfl,
    by with_unfolding_all rfl, by with_unfolding_all rfl⟩
  · intro v
    constructor
    · intro h
      rcases hf : pyFloatOf v with _ | q
      · exact Or.inl rfl
      · by_cases hq : q = 0
        · exact Or.inr (by rw [hq])
        · exfalso
          simp [null_float, hf, hq] at h
    · intro h
      rcases h with h | h
      · simp [null_float, h]
      · simp [null_float, h]
  · intro v q h hq
    simp [null_float, h, hq]

/-- C7 (witness for the parsed-float clause). -/
theorem C7_witness : null_float (JVal.num 5) = some 5 :=
  C7_null_float_contract.2.1 (JVal.num 5) 5 rfl (by norm_num)

/-- C9: the stored `trade_type` of every trade row is `null_if_empty` of the
source field; `null_if_empty` nulls exactly the empty/whitespace-only
strings and passes every other value through unchanged. -/
theorem C9_trade_type_nulling :
    (∀ (fs : List (String × JVal)) (entry exit : ℤ) (r : TradeRow),
      tradeRowOf (JVal.obj fs) entry exit = some r →
        r.trade_type = null_if_empty ((lookupField fs "trade_type").getD JVal.null))
    ∧ (∀ s : String, pyStrip s = "" → null_if_empty (JVal.str s) = JVal.null)
    ∧ (∀ s : String, pyStrip s ≠ "" → null_if_empty (JVal.str s) = JVal.str s)
    ∧ (∀ v : JVal, (∀ s, v ≠ JVal.str s) → null_if_empty v = v) := by
  refine ⟨?_, ?_, ?_, ?_⟩
  · intro fs entry exit r h
    rw [tradeRowOf] at h
    cases h
    rfl
  · intro s h; simp [null_if_empty, h]
  · intro s h; simp [null_if_empty, h]
  · intro v h
    match v with
    | .null => rfl
    | .bool b => rfl
    | .num q => rfl
    | .arr xs => rfl
    | .obj fs => rfl
    | .str s => exact absurd rfl (h s)

/-- C9 (witness: a record whose `trade_type` is three spaces is stored with
a NULL `trade_type`). -/
theorem C9_witness :
    c9row.trade_type = null_if_empty ((lookupField c9fields "trade_type").getD JVal.null)
    ∧ c9row.trade_type = JVal.null := by
  refine ⟨C9_trade_type_nulling.1 c9fields 0 0 c9row rfl, by with_unfolding_all rfl⟩

/-- C10: a conversation message whose `role` field is absent, null or the
empty string is stored with role `"assistant"`, and any non-empty role
string is stored unchanged (Python `or` defaulting, applied in the loop and
again in `insert_conversation_message`). -/
theorem C10_role_default :
    ∀ (fs : List (String × JVal)) (db : DB) (ops : List Op) (db' : DB),
      msgOps (JVal.obj fs) = some ops → applyOps db ops = some db' →
      ∃ role content ts,
        db'.conversation_messages
          = db.conversation_messages ++ [⟨db.conv_seq - 1, role, content, ts⟩]
        ∧ ((lookupField fs "role" = none ∨ lookupField fs "role" = some JVal.null
              ∨ lookupField fs "role" = some (JVal.str "")) → role = JVal.str "assistant")
        ∧ (∀ s : String, s ≠ "" → lookupField fs "role" = some (JVal.str s) →
              role = JVal.str s) := by
  intro fs db ops db' hops happ
  rw [msgOps] at hops
  simp only [jGetD] at hops
  rcases hts : to_ms ((lookupField fs "timestamp").getD JVal.null) with _ | ts
  · rw [hts] at hops; exact Option.noConfusion hops
  · rw [hts] at hops
    cases hops
    simp only [applyOps, applyOp] at happ
    cases happ
    refine ⟨_, _, _, rfl, ?_, ?_⟩
    · intro h
      rcases h with h | h | h <;>
        simp [h, pyOrAssistant, jTruthy, insert_conversation_message]
    · intro s hs h
      simp [h, pyOrAssistant, jTruthy, hs, insert_conversation_message]

/-- C10 (witness at a message with no role and one with role "user"). -/
theorem C10_witness :
    ∃ role content ts,
      ((insert_conversation_message emptyDB 0 (pyOrAssistant JVal.null) (JVal.str "hi")
          0).conversation_messages
        = emptyDB.conversation_messages ++ [⟨emptyDB.conv_seq - 1, role, content, ts⟩])
      ∧ role = JVal.str "assistant" := by
  obtain ⟨role, content, ts, h1, h2, h3⟩ :=
    C10_role_default [("content", JVal.str "hi")] emptyDB
      [Op.insMsg (pyOrAssistant JVal.null) (JVal.str "hi") 0]
      (insert_conversation_message emptyDB 0 (pyOrAssistant JVal.null) (JVal.str "hi") 0)
      rfl rfl
  exact ⟨role, content, ts, h1, h2 (Or.inl rfl)⟩


/-- C8: the positions payload of the claim yields exactly one position row,
with synthetic id `"gpt-5:BTC:1700000000000"` (model, symbol and normalized
entry timestamp joined by colons), status `"open"` and side `"long"`. -/
theorem C8_position_synthetic_id :
    (run_import false c8dir emptyDB).map
        (fun p => p.1.positions.map (fun r => (r.id, r.status, r.side)))
      = some [("gpt-5:BTC:1700000000000", "open", "long")] := by
  with_unfolding_all rfl

/-- C5 (code bug): a `model_analytics` entry arriving as a JSON-encoded
string makes the pass abort — the dimension loop's `item.get("model_id", "")`
raises `AttributeError` on a `str` before the blob loop's decoding branch
can run — while the same entry as a native object is stored; the decoding
branch itself (`analyticsBlobOps`) would handle the string identically, but
it is unreachable for string entries. -/
theorem C5_string_payload_aborts :
    run_import false c5strdir emptyDB = none
    ∧ (run_import false c5objdir emptyDB).map (fun p => p.1.model_analytics)
        = some [("m1", c5payload)]
    ∧ analyticsBlobOps (JVal.str c5payload) = [Op.upAnalytics "m1" c5payload] :=
  ⟨by with_unfolding_all rfl, by with_unfolding_all rfl, by with_unfolding_all rfl⟩

theorem run_import_eq_runSections (dir : DataDir) (db : DB) :
    run_import false dir db = runSections sections db dir := rfl

theorem sectionRun_missing (dir : DataDir) (s : SectionSpec) (db : DB)
    (h : dir.read s.file = FileContent.missing) :
    sectionRun dir s db = some (db, [s.warn]) := by
  simp [sectionRun, h]

theorem runSections_all_missing :
    ∀ (l : List SectionSpec) (db : DB) (dir : DataDir),
      (∀ s ∈ l, dir.read s.file = FileContent.missing) →
      runSections l db dir = some (db, l.map (fun s => s.warn))
  | [], _, _, _ => rfl
  | s :: rest, db, dir, h => by
    have h1 := sectionRun_missing dir s db (h s (List.mem_cons_self s rest))
    have h2 := runSections_all_missing rest db dir (fun t ht => h t (List.mem_cons_of_mem s ht))
    simp [runSections, h1, h2]

theorem runSections_malformed :
    ∀ (l : List SectionSpec) (db : DB) (dir : DataDir) (s : SectionSpec),
      s ∈ l → dir.read s.file = FileContent.malformed →
      runSections l db dir = none
  | [], _, _, _, h, _ => absurd h (List.not_mem_nil _)
  | a :: rest, db, dir, s, h, hm => by
    rcases List.mem_cons.mp h with rfl | h2
    · simp [runSections, sectionRun, hm]
    · rcases hr : sectionRun dir a db with _ | p
      · simp [runSections, hr]
      · obtain ⟨db2, w⟩ := p
        simp [runSections, hr, runSections_malformed rest db2 dir s h2 hm]

/-- C6: a missing snapshot file makes its section a warning-logged no-op (so
the pass continues past it); when every file is missing the pass terminates
successfully with all six warnings and an unchanged store; a malformed (or
otherwise unreadable) snapshot aborts the whole pass. -/
theorem C6_missing_skip_malformed_abort :
    (∀ s ∈ sections, ∀ (dir : DataDir) (db : DB),
        dir.read s.file = FileContent.missing → sectionRun dir s db = some (db, [s.warn]))
    ∧ (∀ (dir : DataDir) (db : DB),
        (∀ s ∈ sections, dir.read s.file = FileContent.missing) →
        run_import false dir db = some (db, sections.map (fun s => s.warn)))
    ∧ (∀ s ∈ sections, ∀ (dir : DataDir) (db : DB),
        dir.read s.file = FileContent.malformed → run_import false dir db = none) := by
  refine ⟨?_, ?_, ?_⟩
  · intro s _ dir db h
    exact sectionRun_missing dir s db h
  · intro dir db h
    rw [run_import_eq_runSections]
    exact runSections_all_missing sections db dir h
  · intro s hs dir db h
    rw [run_import_eq_runSections]
    exact runSections_malformed sections db dir s hs h

/-- C6 (witness: the prices section skips on an empty directory; a malformed
analytics file aborts the pass). -/
theorem C6_witness :
    sectionRun ⟨[]⟩ ⟨"crypto-prices.json", "skip crypto prices: file missing", pricesExtract⟩
        emptyDB
      = some (emptyDB, ["skip crypto prices: file missing"])
    ∧ run_import false ⟨[("analytics.json", FileContent.malformed)]⟩ emptyDB = none := by
  constructor
  · exact C6_missing_skip_malformed_abort.1 _ (by unfold sections; exact List.Mem.head _)
      ⟨[]⟩ emptyDB rfl
  · exact C6_missing_skip_malformed_abort.2.2
      ⟨"analytics.json", "skip analytics: file missing", analyticsExtract⟩
      (by unfold sections
          exact List.Mem.tail _ (List.Mem.tail _ (List.Mem.tail _ (List.Mem.tail _
            (List.Mem.head _)))))
      ⟨[("analytics.json", FileContent.malformed)]⟩ emptyDB rfl



theorem dropWhile_head_false :
    ∀ (l : List Char) (c : Char) (t : List Char),
      List.dropWhile pySpace l = c :: t → pySpace c = false
  | [], _, _, h => by simp at h
  | a :: rest, c, t, h => by
    by_cases ha : pySpace a
    · rw [List.dropWhile_cons_of_pos ha] at h
      exact dropWhile_head_false rest c t h
    · rw [List.dropWhile_cons_of_neg ha] at h
      injection h with h1 h2
      rw [← h1]
      simpa using ha

theorem trimRight_shape (a : Char) (rest : List Char) :
    trimRight (a :: rest) = [] ∨ ∃ t, trimRight (a :: rest) = a :: t := by
  cases htr : trimRight rest with
  | nil =>
    by_cases h : pySpace a
    · left; simp [trimRight, htr, h]
    · right; exact ⟨[], by simp [trimRight, htr, h]⟩
  | cons b t => right; exact ⟨b :: t, by simp only [trimRight, htr]⟩

theorem trimRight_cons_of_ne (a : Char) (l : List Char) (b : Char) (t : List Char)
    (h : trimRight l = b :: t) : trimRight (a :: l) = a :: b :: t := by
  simp only [trimRight, h]

theorem trimRight_idem : ∀ l, trimRight (trimRight l) = trimRight l
  | [] => rfl
  | a :: rest => by
    cases htr : trimRight rest with
    | nil =>
      by_cases h : pySpace a
      · simp [trimRight, htr, h]
      · simp [trimRight, htr, h]
    | cons b t =>
      have ih := trimRight_idem rest
      have h2 : trimRight (b :: t) = b :: t := by rw [← htr, ih, htr]
      rw [trimRight_cons_of_ne a rest b t htr, trimRight_cons_of_ne a (b :: t) b t h2]

theorem trimLeft_no_strip :
    ∀ l, (∀ c t, l = c :: t → pySpace c = false) → trimLeft l = l
  | [], _ => rfl
  | c :: t, h => by simp [trimLeft, List.dropWhile_cons, h c t rfl]

theorem pyStrip_idem (s : String) : pyStrip (pyStrip s) = pyStrip s := by
  rw [pyStrip, pyStrip]
  congr 1
  show trimRight (trimLeft (trimRight (trimLeft s.data))) = trimRight (trimLeft s.data)
  have hzl : ∀ c t, trimLeft s.data = c :: t → pySpace c = false := fun c t h =>
    dropWhile_head_false s.data c t h
  have hylead : ∀ c t, trimRight (trimLeft s.data) = c :: t → pySpace c = false := by
    intro c t h
    cases hz : trimLeft s.data with
    | nil => rw [hz] at h; exact absurd h (by simp [trimRight])
    | cons a z =>
      rw [hz] at h
      rcases trimRight_shape a z with h2 | ⟨t2, h2⟩
      · rw [h2] at h; exact absurd h (by simp)
      · rw [h2] at h
        injection h with h3 h4
        rw [← h3]
        exact hzl a z hz
  rw [trimLeft_no_strip _ hylead]
  exact trimRight_idem _

theorem strippedStr_strip (v : JVal) : pyStrip (strippedStr v) = strippedStr v :=
  pyStrip_idem (pyStr v)

theorem DimLe_refl (db : DB) : DimLe db db := ⟨fun _ h => h, fun _ h => h⟩

theorem DimLe_trans {a b c : DB} (h1 : DimLe a b) (h2 : DimLe b c) : DimLe a c :=
  ⟨fun m hm => h2.1 m (h1.1 m hm), fun s hs => h2.2 s (h1.2 s hs)⟩

theorem mem_insertKeyed_mono {ρ : Type} {keyEq : ρ → ρ → Bool} {l : List ρ} {x : ρ}
    (r : ρ) (h : x ∈ l) : x ∈ insertKeyed keyEq r l := by
  rw [insertKeyed]
  by_cases hc : hasKeyR keyEq l r
  · rw [if_pos hc]; exact h
  · rw [if_neg hc]; exact List.mem_append.mpr (Or.inl h)

theorem applyOp_dimLe : ∀ (op : Op) (db db' : DB), applyOp db op = some db' → DimLe db db'
  | .upModel m, db, db', h => by
    cases h
    exact ⟨fun m' hm => hasKeyA_upsert_mono _ _ hm, fun s hs => hs⟩
  | .upSymbol s, db, db', h => by
    cases h
    refine ⟨fun m' hm => hm, fun s' hs => ?_⟩
    show s' ∈ insertKeyed symKeyEq (pyStrip s) db.symbols
    exact mem_insertKeyed_mono _ hs
  | .upPrice sym p ts, db, db', h => by cases h; exact DimLe_refl _
  | .insTrade r, db, db', h => by
    simp only [applyOp] at h
    rcases insert_trade_cases db r with hc | hc
    · rw [hc] at h; exact Option.noConfusion h
    · rw [hc] at h; cases h; exact DimLe_refl _
  | .insPos r, db, db', h => by cases h; exact DimLe_refl _
  | .upAnalytics m p, db, db', h => by cases h; exact DimLe_refl _
  | .insConvo m, db, db', h => by cases h; exact DimLe_refl _
  | .insMsg role content ts, db, db', h => by cases h; exact DimLe_refl _

theorem applyOps_dimLe :
    ∀ (L : List Op) (db db' : DB), applyOps db L = some db' → DimLe db db'
  | [], db, db', h => by cases h; exact DimLe_refl _
  | op :: L, db, db', h => by
    rw [applyOps] at h
    rcases ho : applyOp db op with _ | db1
    · rw [ho] at h; exact Option.noConfusion h
    · rw [ho] at h
      exact DimLe_trans (applyOp_dimLe op db db1 ho) (applyOps_dimLe L db1 db' h)

theorem TradeRefOK_mono {a b : DB} (h : DimLe a b) {r : TradeRow}
    (hr : TradeRefOK a r) : TradeRefOK b r :=
  ⟨fun h1 h2 => h.1 _ (hr.1 h1 h2), fun h1 h2 => h.2 _ (hr.2 h1 h2)⟩

theorem PosRefOK_mono {a b : DB} (h : DimLe a b) {r : PositionRow}
    (hr : PosRefOK a r) : PosRefOK b r :=
  ⟨fun h1 => h.1 _ (hr.1 h1), h.2 _ hr.2⟩

/-- Referential integrity survives any statement that leaves the dependent
tables unchanged and only grows the dimension tables. -/
theorem Inv_mono {a b : DB} (hd : DimLe a b) (ht : b.trades = a.trades)
    (hp : b.positions = a.positions) (han : b.model_analytics = a.model_analytics)
    (hc : b.conversations = a.conversations) (hi : Inv a) : Inv b := by
  obtain ⟨i1, i2, i3, i4⟩ := hi
  refine ⟨?_, ?_, ?_, ?_⟩
  · intro r hr
    rw [ht] at hr
    exact TradeRefOK_mono hd (i1 r hr)
  · intro r hr
    rw [hp] at hr
    exact PosRefOK_mono hd (i2 r hr)
  · intro p hp2
    rw [han] at hp2
    exact hd.1 _ (i3 p hp2)
  · intro c hc2 hne
    rw [hc] at hc2
    exact hd.1 _ (i4 c hc2 hne)

theorem Inv_upModel (db : DB) (m : String) (h : Inv db) : Inv (upsert_model db m m) :=
  @Inv_mono db (upsert_model db m m)
    ⟨fun m' hm => hasKeyA_upsert_mono _ _ hm, fun s hs => hs⟩ rfl rfl rfl rfl h

theorem Inv_upSymbol (db : DB) (sy : String) (h : Inv db) : Inv (upsert_symbol db sy) := by
  refine @Inv_mono db (upsert_symbol db sy) ⟨fun m' hm => hm, fun s' hs => ?_⟩ rfl rfl rfl rfl h
  show s' ∈ insertKeyed symKeyEq (pyStrip sy) db.symbols
  exact mem_insertKeyed_mono _ hs

theorem Inv_upPrice (db : DB) (sy : String) (p : ℚ) (ts : ℤ) (h : Inv db) :
    Inv (upsert_price_latest db sy p ts) :=
  @Inv_mono db (upsert_price_latest db sy p ts) (DimLe_refl db) rfl rfl rfl rfl h

theorem Inv_insMsg (db : DB) (cid : ℤ) (role content : JVal) (ts : ℤ) (h : Inv db) :
    Inv (insert_conversation_message db cid role content ts) :=
  @Inv_mono db (insert_conversation_message db cid role content ts)
    (DimLe_refl db) rfl rfl rfl rfl h

theorem Inv_insConvo (db : DB) (m : String)
    (hm : m ≠ "" → hasKeyA db.models m = true) (h : Inv db) :
    Inv ((insert_conversation db m).2) := by
  obtain ⟨i1, i2, i3, i4⟩ := h
  refine ⟨i1, i2, i3, ?_⟩
  intro c hc hne
  rcases List.mem_append.mp hc with hold | hnew
  · exact i4 c hold hne
  · rw [List.mem_singleton.mp hnew] at hne ⊢
    exact hm hne

theorem Inv_insTrade {db db' : DB} {r : TradeRow} (hr : TradeRefOK db r)
    (hins : insert_trade db r = some db') (h : Inv db) : Inv db' := by
  rcases insert_trade_cases db r with hc | hc
  · rw [hc] at hins; exact Option.noConfusion hins
  · rw [hc] at hins
    cases hins
    obtain ⟨i1, i2, i3, i4⟩ := h
    refine ⟨?_, i2, i3, i4⟩
    intro r' hr'
    rcases mem_insertKeyed hr' with hold | hnew
    · exact i1 r' hold
    · rw [hnew]; exact hr

theorem Inv_insPos {db : DB} {r : PositionRow} (hr : PosRefOK db r) (h : Inv db) :
    Inv (insert_position_open db r) := by
  obtain ⟨i1, i2, i3, i4⟩ := h
  refine ⟨i1, ?_, i3, i4⟩
  intro r' hr'
  rcases mem_insertKeyed hr' with hold | hnew
  · exact i2 r' hold
  · rw [hnew]; exact hr

theorem Inv_upAnalytics {db : DB} {m : String} (payload : String)
    (hm : hasKeyA db.models m = true) (h : Inv db) :
    Inv (upsert_model_analytics db m payload) := by
  obtain ⟨i1, i2, i3, i4⟩ := h
  refine ⟨i1, i2, ?_, i4⟩
  intro p hp
  rcases mem_upsertAssoc hp with hold | hkey
  · exact i3 p hold
  · rw [hkey]; exact hm

theorem InvPres_nil : InvPres [] := by
  intro db db' h happ
  cases happ
  exact h

theorem InvPres_append {xs ys : List Op} (hx : InvPres xs) (hy : InvPres ys) :
    InvPres (xs ++ ys) := by
  intro db db' h happ
  rw [applyOps_append] at happ
  rcases ha : applyOps db xs with _ | db1
  · rw [ha] at happ; exact Option.noConfusion happ
  · rw [ha] at happ
    exact hy db1 db' (hx db db1 h ha) happ

theorem InvPres_flatten :
    ∀ (opss : List (List Op)), (∀ ops ∈ opss, InvPres ops) → InvPres opss.flatten
  | [], _ => InvPres_nil
  | ops :: rest, h => by
    rw [List.flatten_cons]
    exact InvPres_append (h ops (List.mem_cons_self _ _))
      (InvPres_flatten rest (fun o ho => h o (List.mem_cons_of_mem _ ho)))

theorem mapOpt_mem {α β : Type} {f : α → Option β} :
    ∀ {l : List α} {bs : List β}, mapOpt f l = some bs →
      ∀ b ∈ bs, ∃ a ∈ l, f a = some b := by
  intro l
  induction l with
  | nil =>
    intro bs h b hb
    cases h
    exact absurd hb (List.not_mem_nil _)
  | cons a rest ih =>
    intro bs h b hb
    rw [mapOpt] at h
    rcases hf : f a with _ | b1
    · rw [hf] at h; exact Option.noConfusion h
    · rw [hf] at h
      rcases hm : mapOpt f rest with _ | bs1
      · rw [hm] at h; exact Option.noConfusion h
      · rw [hm] at h
        cases h
        rcases List.mem_cons.mp hb with rfl | hb2
        · exact ⟨a, List.mem_cons_self _ _, hf⟩
        · obtain ⟨a2, ha2, hfa2⟩ := ih hm b hb2
          exact ⟨a2, List.mem_cons_of_mem _ ha2, hfa2⟩

theorem applyOps_cons_split {db db' : DB} {op : Op} {L : List Op}
    (h : applyOps db (op :: L) = some db') :
    ∃ db1, applyOp db op = some db1 ∧ applyOps db1 L = some db' := by
  rw [applyOps] at h
  rcases ho : applyOp db op with _ | db1
  · rw [ho] at h; exact Option.noConfusion h
  · rw [ho] at h; exact ⟨db1, rfl, h⟩

theorem applyOps_append_split {db db' : DB} {xs ys : List Op}
    (h : applyOps db (xs ++ ys) = some db') :
    ∃ db1, applyOps db xs = some db1 ∧ applyOps db1 ys = some db' := by
  rw [applyOps_append] at h
  rcases ha : applyOps db xs with _ | db1
  · rw [ha] at h; exact Option.noConfusion h
  · rw [ha] at h; exact ⟨db1, rfl, h⟩

theorem mapOpt_forall {α β : Type} {f : α → Option β} :
    ∀ {l : List α} {bs : List β}, mapOpt f l = some bs → ∀ a ∈ l, ∃ b, f a = some b := by
  intro l
  induction l with
  | nil => intro bs _ a ha; exact absurd ha (List.not_mem_nil _)
  | cons x rest ih =>
    intro bs h a ha
    rw [mapOpt] at h
    rcases hf : f x with _ | b1
    · rw [hf] at h; exact Option.noConfusion h
    · rw [hf] at h
      rcases hm : mapOpt f rest with _ | bs1
      · rw [hm] at h; exact Option.noConfusion h
      · rcases List.mem_cons.mp ha with rfl | ha2
        · exact ⟨b1, hf⟩
        · exact ih hm a ha2

theorem mem_insertKeyed_self_str (x : String) (l : List String) :
    x ∈ insertKeyed symKeyEq x l := by
  rw [insertKeyed]
  by_cases hc : hasKeyR symKeyEq l x
  · rw [if_pos hc]
    simp only [hasKeyR, List.any_eq_true] at hc
    obtain ⟨y, hy, he⟩ := hc
    rw [show y = x from by simpa [symKeyEq] using he] at hy
    exact hy
  · rw [if_neg hc]
    exact List.mem_append.mpr (Or.inr (by simp))

theorem priceItemOps_invPres {kv : String × JVal} {ops : List Op}
    (h : priceItemOps kv = some ops) : InvPres ops := by
  rw [priceItemOps] at h
  rcases h1 : jGetD kv.2 "price" (.num 0) with _ | priceV
  · simp [h1] at h
  simp only [h1] at h
  rcases h2 : pyFloatOf priceV with _ | price
  · simp [h2] at h
  simp only [h2] at h
  rcases h3 : jGetD kv.2 "timestamp" JVal.null with _ | tsV
  · simp [h3] at h
  simp only [h3] at h
  rcases h4 : to_ms tsV with _ | ts
  · simp [h4] at h
  simp only [h4] at h
  cases h
  intro db db' hInv happ
  simp only [applyOps, applyOp] at happ
  cases happ
  exact Inv_upPrice _ _ _ _ (Inv_upSymbol _ _ hInv)

theorem pricesExtract_invPres {v : JVal} {ops : List Op}
    (h : pricesExtract v = some ops) : InvPres ops := by
  rw [pricesExtract] at h
  rcases h1 : jGetD v "prices" (.obj []) with _ | prices
  · simp [h1] at h
  simp only [h1] at h
  rcases h2 : jItems prices with _ | items
  · simp [h2] at h
  simp only [h2] at h
  rcases h3 : mapOpt priceItemOps items with _ | opss
  · simp [h3] at h
  simp only [h3] at h
  cases h
  exact InvPres_flatten opss (fun o ho => by
    obtain ⟨kv, _, hf⟩ := mapOpt_mem h3 o ho
    exact priceItemOps_invPres hf)

theorem sinceExtract_invPres {v : JVal} {ops : List Op}
    (h : sinceExtract v = some ops) : InvPres ops := by
  rcases v with _ | _ | _ | _ | _ | fs <;> rw [sinceExtract] at h <;>
    first
    | exact Option.noConfusion h
    | (cases h; exact InvPres_nil)

theorem msgOps_invPres {m : JVal} {ops : List Op} (h : msgOps m = some ops) :
    InvPres ops := by
  rw [msgOps] at h
  rcases h1 : jGetD m "timestamp" JVal.null with _ | tsV
  · simp [h1] at h
  simp only [h1] at h
  rcases h2 : to_ms tsV with _ | ts
  · simp [h2] at h
  simp only [h2] at h
  rcases h3 : jGetD m "role" JVal.null with _ | roleV
  · simp [h3] at h
  simp only [h3] at h
  rcases h4 : jGetD m "content" (.str "") with _ | contentV
  · simp [h4] at h
  simp only [h4] at h
  cases h
  intro db db' hInv happ
  simp only [applyOps, applyOp] at happ
  cases happ
  exact Inv_insMsg _ _ _ _ _ hInv

theorem convoOps_invPres {convo : JVal} {ops : List Op}
    (h : convoOps convo = some ops) : InvPres ops := by
  rw [convoOps] at h
  rcases h1 : jGetD convo "model_id" (.str "") with _ | midV
  · simp [h1] at h
  simp only [h1] at h
  rcases h2 : jGetD convo "messages" (.arr []) with _ | msgsV
  · simp [h2] at h
  simp only [h2] at h
  rcases h3 : pyIter msgsV with _ | msgs
  · simp [h3] at h
  simp only [h3] at h
  rcases h4 : mapOpt msgOps msgs with _ | msgOpss
  · simp [h4] at h
  simp only [h4] at h
  cases h
  intro db db' hInv happ
  obtain ⟨db1, ha1, ha2⟩ := applyOps_append_split happ
  obtain ⟨db0, ha0, ha01⟩ := applyOps_append_split ha1
  have hmsgs : InvPres msgOpss.flatten := InvPres_flatten msgOpss (fun o ho => by
    obtain ⟨msg, _, hf⟩ := mapOpt_mem h4 o ho
    exact msgOps_invPres hf)
  by_cases hm : strippedStr midV = ""
  · rw [if_pos hm] at ha0
    cases ha0
    simp only [applyOps, applyOp] at ha01
    cases ha01
    refine hmsgs _ db' (Inv_insConvo _ _ (fun hne => absurd hm hne) hInv) ha2
  · rw [if_neg hm] at ha0
    simp only [applyOps, applyOp] at ha0
    cases ha0
    have hInv0 : Inv (upsert_model db (strippedStr midV) (strippedStr midV)) :=
      Inv_upModel db _ hInv
    have hkey : hasKeyA (upsert_model db (strippedStr midV) (strippedStr midV)).models
        (strippedStr midV) = true := by
      show hasKeyA (upsertAssoc (pyStrip (strippedStr midV)) (strippedStr midV) db.models)
        (strippedStr midV) = true
      rw [strippedStr_strip]
      exact hasKeyA_upsert_self _ _
    simp only [applyOps, applyOp] at ha01
    cases ha01
    exact hmsgs _ db' (Inv_insConvo _ _ (fun _ => hkey) hInv0) ha2

theorem conversationsExtract_invPres {v : JVal} {ops : List Op}
    (h : conversationsExtract v = some ops) : InvPres ops := by
  rw [conversationsExtract] at h
  rcases h1 : jGetD v "conversations" (.arr []) with _ | convs
  · simp [h1] at h
  simp only [h1] at h
  rcases h2 : pyIter convs with _ | items
  · simp [h2] at h
  simp only [h2] at h
  rcases h3 : mapOpt convoOps items with _ | opss
  · simp [h3] at h
  simp only [h3] at h
  cases h
  exact InvPres_flatten opss (fun o ho => by
    obtain ⟨c, _, hf⟩ := mapOpt_mem h3 o ho
    exact convoOps_invPres hf)

/-- Core shape of one trade record's statement block: conditional model and
symbol upserts followed by the insert.  `hrm` says the row is referentially
sound whenever the dimensions the block upserts are present. -/
theorem InvPres_trade_block (mid sym : String) (row : TradeRow)
    (hmid : pyStrip mid = mid) (hsym : pyStrip sym = sym)
    (hrm : ∀ db : DB, (mid ≠ "" → hasKeyA db.models mid = true) →
      (sym ≠ "" → sym ∈ db.symbols) → TradeRefOK db row) :
    InvPres ((if mid = "" then [] else [Op.upModel mid]) ++
             (if sym = "" then [] else [Op.upSymbol sym]) ++ [Op.insTrade row]) := by
  intro db db' hInv happ
  obtain ⟨db1, ha1, ha2⟩ := applyOps_append_split happ
  obtain ⟨db0, ha0, ha01⟩ := applyOps_append_split ha1
  have hstep0 : Inv db0 ∧ (mid ≠ "" → hasKeyA db0.models mid = true) := by
    by_cases hm : mid = ""
    · rw [if_pos hm] at ha0
      cases ha0
      exact ⟨hInv, fun hne => absurd hm hne⟩
    · rw [if_neg hm] at ha0
      simp only [applyOps, applyOp] at ha0
      cases ha0
      refine ⟨Inv_upModel db mid hInv, fun _ => ?_⟩
      show hasKeyA (upsertAssoc (pyStrip mid) mid db.models) mid = true
      rw [hmid]
      exact hasKeyA_upsert_self _ _
  have hstep1 : Inv db1 ∧ (mid ≠ "" → hasKeyA db1.models mid = true)
      ∧ (sym ≠ "" → sym ∈ db1.symbols) := by
    by_cases hs : sym = ""
    · rw [if_pos hs] at ha01
      cases ha01
      exact ⟨hstep0.1, hstep0.2, fun hne => absurd hs hne⟩
    · rw [if_neg hs] at ha01
      simp only [applyOps, applyOp] at ha01
      cases ha01
      refine ⟨Inv_upSymbol db0 sym hstep0.1, hstep0.2, fun _ => ?_⟩
      show sym ∈ insertKeyed symKeyEq (pyStrip sym) db0.symbols
      rw [hsym]
      exact mem_insertKeyed_self_str _ _
  obtain ⟨db2, ho, hrest⟩ := applyOps_cons_split ha2
  cases hrest
  simp only [applyOp] at ho
  exact Inv_insTrade (hrm db1 hstep1.2.1 hstep1.2.2) ho hstep1.1

theorem strippedStr_empty : strippedStr (JVal.str "") = "" := rfl

theorem tradeRecordOps_invPres {trade : JVal} {ops : List Op}
    (h : tradeRecordOps trade = some ops) : InvPres ops := by
  rcases trade with _ | b | q | s | xs | fs
  · simp [tradeRecordOps, jGetD] at h
  · simp [tradeRecordOps, jGetD] at h
  · simp [tradeRecordOps, jGetD] at h
  · simp [tradeRecordOps, jGetD] at h
  · simp [tradeRecordOps, jGetD] at h
  simp only [tradeRecordOps, jGetD, Option.getD_some] at h
  rcases het : to_ms_float ((lookupField fs "entry_time").getD JVal.null) with _ | entry
  · simp [het] at h
  rcases hxt : to_ms_float ((lookupField fs "exit_time").getD JVal.null) with _ | exit0
  · simp [het, hxt] at h
  simp only [het, hxt, tradeRowOf] at h
  cases h
  refine InvPres_trade_block _ _ _ (strippedStr_strip _) (strippedStr_strip _) ?_
  intro db hk hs
  constructor
  · rcases hl : lookupField fs "model_id" with _ | mv
    · intro hnn hne
      simp at hnn
    · rw [hl] at hk
      simp only [Option.getD_some] at hk ⊢
      intro hnn hne
      exact hk hne
  · rcases hl : lookupField fs "symbol" with _ | sv
    · intro hnn hne
      simp at hnn
    · rw [hl] at hs
      simp only [Option.getD_some] at hs ⊢
      intro hnn hne
      exact hs hne

theorem tradesExtract_invPres {v : JVal} {ops : List Op}
    (h : tradesExtract v = some ops) : InvPres ops := by
  rw [tradesExtract] at h
  rcases h1 : jGetD v "trades" (.arr []) with _ | trades
  · simp [h1] at h
  simp only [h1] at h
  rcases h2 : pyIter trades with _ | items
  · simp [h2] at h
  simp only [h2] at h
  rcases h3 : mapOpt tradeRecordOps items with _ | opss
  · simp [h3] at h
  simp only [h3] at h
  cases h
  exact InvPres_flatten opss (fun o ho => by
    obtain ⟨t, _, hf⟩ := mapOpt_mem h3 o ho
    exact tradeRecordOps_invPres hf)

theorem posEntryOps_invPres_ctx {mid : String} {kv : String × JVal} {ops : List Op}
    (h : posEntryOps mid kv = some ops) :
    ∀ db db', Inv db → (mid ≠ "" → hasKeyA db.models mid = true) →
      applyOps db ops = some db' →
      Inv db' ∧ (mid ≠ "" → hasKeyA db'.models mid = true) := by
  rw [posEntryOps] at h
  rcases kv with ⟨sym, pos⟩
  rcases pos with _ | b | q | s | xs | pfs
  · simp at h
  · simp at h
  · simp at h
  · simp at h
  · simp at h
  simp only at h
  rcases het : to_ms_float ((lookupField pfs "entry_time").getD JVal.null) with _ | entry
  · simp [het] at h
  simp only [het] at h
  cases h
  intro db db' hInv hk happ
  obtain ⟨dba, ho1, happ1⟩ := applyOps_cons_split happ
  obtain ⟨dbb, ho2, happ2⟩ := applyOps_cons_split happ1
  cases happ2
  simp only [applyOp] at ho1 ho2
  cases ho1
  cases ho2
  have hInva : Inv (upsert_symbol db sym) := Inv_upSymbol db sym hInv
  have hka : mid ≠ "" → hasKeyA (upsert_symbol db sym).models mid = true := hk
  have hok : PosRefOK (upsert_symbol db sym)
      ⟨mid ++ ":" ++ sym ++ ":" ++ toString entry, mid, sym, "long",
        (lookupField pfs "entry_price").getD JVal.null,
        (lookupField pfs "quantity").getD JVal.null,
        null_float ((lookupField pfs "leverage").getD JVal.null),
        null_float ((lookupField pfs "confidence").getD JVal.null), entry, "open"⟩ := by
    refine ⟨hka, ?_⟩
    show pyStrip sym ∈ insertKeyed symKeyEq (pyStrip sym) db.symbols
    exact mem_insertKeyed_self_str _ _
  exact ⟨Inv_insPos hok hInva, hka⟩

theorem posEntries_invPres {mid : String} :
    ∀ (entries : List (String × JVal)) (opss : List (List Op)) (db db' : DB),
      mapOpt (posEntryOps mid) entries = some opss →
      Inv db → (mid ≠ "" → hasKeyA db.models mid = true) →
      applyOps db opss.flatten = some db' → Inv db'
  | [], opss, db, db', hm, hInv, _, happ => by
    cases hm
    cases happ
    exact hInv
  | kv :: rest, opss, db, db', hm, hInv, hk, happ => by
    rw [mapOpt] at hm
    rcases hf : posEntryOps mid kv with _ | ops0
    · rw [hf] at hm; exact Option.noConfusion hm
    rw [hf] at hm
    rcases hrest : mapOpt (posEntryOps mid) rest with _ | opss1
    · rw [hrest] at hm; exact Option.noConfusion hm
    rw [hrest] at hm
    cases hm
    rw [List.flatten_cons] at happ
    obtain ⟨db1, ha1, ha2⟩ := applyOps_append_split happ
    obtain ⟨hInv1, hk1⟩ := posEntryOps_invPres_ctx hf db db1 hInv hk ha1
    exact posEntries_invPres rest opss1 db1 db' hrest hInv1 hk1 ha2

theorem accountOps_invPres {md : JVal} {ops : List Op}
    (h : accountOps md = some ops) : InvPres ops := by
  rw [accountOps] at h
  rcases h1 : jGetD md "model_id" (.str "") with _ | midV
  · simp [h1] at h
  simp only [h1] at h
  rcases h2 : jGetD md "positions" (.obj []) with _ | posRaw
  · simp [h2] at h
  simp only [h2] at h
  rcases h3 : jItems (if jTruthy posRaw then posRaw else JVal.obj []) with _ | entries
  · simp [h3] at h
  simp only [h3] at h
  rcases h4 : mapOpt (posEntryOps (strippedStr midV)) entries with _ | opss
  · simp [h4] at h
  simp only [h4] at h
  cases h
  intro db db' hInv happ
  obtain ⟨db0, ha0, ha1⟩ := applyOps_append_split happ
  have hstep0 : Inv db0 ∧ (strippedStr midV ≠ "" → hasKeyA db0.models (strippedStr midV) = true) := by
    by_cases hm : strippedStr midV = ""
    · rw [if_pos hm] at ha0
      cases ha0
      exact ⟨hInv, fun hne => absurd hm hne⟩
    · rw [if_neg hm] at ha0
      simp only [applyOps, applyOp] at ha0
      cases ha0
      refine ⟨Inv_upModel db _ hInv, fun _ => ?_⟩
      show hasKeyA (upsertAssoc (pyStrip (strippedStr midV)) (strippedStr midV) db.models)
        (strippedStr midV) = true
      rw [strippedStr_strip]
      exact hasKeyA_upsert_self _ _
  exact posEntries_invPres entries opss db0 db' h4 hstep0.1 hstep0.2 ha1

theorem positionsExtract_invPres {v : JVal} {ops : List Op}
    (h : positionsExtract v = some ops) : InvPres ops := by
  rw [positionsExtract] at h
  rcases h1 : jGetD v "accountTotals" (.arr []) with _ | accounts
  · simp [h1] at h
  simp only [h1] at h
  rcases h2 : pyIter accounts with _ | items
  · simp [h2] at h
  simp only [h2] at h
  rcases h3 : mapOpt accountOps items with _ | opss
  · simp [h3] at h
  simp only [h3] at h
  cases h
  exact InvPres_flatten opss (fun o ho => by
    obtain ⟨a, _, hf⟩ := mapOpt_mem h3 o ho
    exact accountOps_invPres hf)

theorem analyticsDims_phase :
    ∀ (items : List JVal) (dimss : List (List Op)) (db db' : DB),
      mapOpt analyticsDimOps items = some dimss → Inv db →
      applyOps db dimss.flatten = some db' →
      Inv db' ∧ ∀ item ∈ items, ∀ fs, item = JVal.obj fs → modelIdOfFields fs ≠ "" →
        hasKeyA db'.models (modelIdOfFields fs) = true
  | [], dimss, db, db', hm, hInv, happ => by
    cases hm
    cases happ
    exact ⟨hInv, fun item hi => absurd hi (List.not_mem_nil _)⟩
  | item :: rest, dimss, db, db', hm, hInv, happ => by
    rw [mapOpt] at hm
    rcases hf : analyticsDimOps item with _ | ops0
    · rw [hf] at hm; exact Option.noConfusion hm
    rw [hf] at hm
    rcases hrest : mapOpt analyticsDimOps rest with _ | dimss1
    · rw [hrest] at hm; exact Option.noConfusion hm
    rw [hrest] at hm
    cases hm
    rw [List.flatten_cons] at happ
    obtain ⟨db1, ha1, ha2⟩ := applyOps_append_split happ
    rcases item with _ | b | q | s | xs | fs0
    · simp [analyticsDimOps] at hf
    · simp [analyticsDimOps] at hf
    · simp [analyticsDimOps] at hf
    · simp [analyticsDimOps] at hf
    · simp [analyticsDimOps] at hf
    simp only [analyticsDimOps] at hf
    cases hf
    have hstep : Inv db1 ∧ (modelIdOfFields fs0 ≠ "" →
        hasKeyA db1.models (modelIdOfFields fs0) = true) := by
      by_cases hm0 : modelIdOfFields fs0 = ""
      · rw [if_pos hm0] at ha1
        cases ha1
        exact ⟨hInv, fun hne => absurd hm0 hne⟩
      · rw [if_neg hm0] at ha1
        simp only [applyOps, applyOp] at ha1
        cases ha1
        refine ⟨Inv_upModel db _ hInv, fun _ => ?_⟩
        show hasKeyA (upsertAssoc (pyStrip (modelIdOfFields fs0)) (modelIdOfFields fs0)
          db.models) (modelIdOfFields fs0) = true
        rw [show pyStrip (modelIdOfFields fs0) = modelIdOfFields fs0 from strippedStr_strip _]
        exact hasKeyA_upsert_self _ _
    obtain ⟨hInv2, hkeys⟩ := analyticsDims_phase rest dimss1 db1 db' hrest hstep.1 ha2
    refine ⟨hInv2, ?_⟩
    intro it hit fs hfs hne
    rcases List.mem_cons.mp hit with rfl | hit2
    · injection hfs with he
      subst he
      exact (applyOps_dimLe _ _ _ ha2).1 _ (hstep.2 hne)
    · exact hkeys it hit2 fs hfs hne

theorem analyticsBlobs_phase :
    ∀ (items : List JVal) (db db' : DB),
      (∀ item ∈ items, ∀ fs, item = JVal.obj fs → modelIdOfFields fs ≠ "" →
        hasKeyA db.models (modelIdOfFields fs) = true) →
      (∀ item ∈ items, ∃ fs, item = JVal.obj fs) →
      Inv db → applyOps db (items.map analyticsBlobOps).flatten = some db' → Inv db'
  | [], db, db', _, _, hInv, happ => by
    cases happ
    exact hInv
  | item :: rest, db, db', hkeys, hobj, hInv, happ => by
    rw [List.map_cons, List.flatten_cons] at happ
    obtain ⟨db1, ha1, ha2⟩ := applyOps_append_split happ
    obtain ⟨fs0, rfl⟩ := hobj _ (List.mem_cons_self _ _)
    have hmodels : db1.models = db.models ∧ Inv db1 := by
      rw [analyticsBlobOps] at ha1
      by_cases hm0 : modelIdOfFields fs0 = ""
      · rw [if_pos hm0] at ha1
        cases ha1
        exact ⟨rfl, hInv⟩
      · rw [if_neg hm0] at ha1
        simp only [applyOps, applyOp] at ha1
        cases ha1
        exact ⟨rfl, Inv_upAnalytics _
          (hkeys _ (List.mem_cons_self _ _) fs0 rfl hm0) hInv⟩
    refine analyticsBlobs_phase rest db1 db' ?_
      (fun it hit => hobj it (List.mem_cons_of_mem _ hit)) hmodels.2 ha2
    intro it hit fs hfs hne
    rw [hmodels.1]
    exact hkeys it (List.mem_cons_of_mem _ hit) fs hfs hne

theorem analyticsExtract_invPres {v : JVal} {ops : List Op}
    (h : analyticsExtract v = some ops) : InvPres ops := by
  rcases v with _ | b | q | s | xs | fs
  · simp [analyticsExtract] at h
  · simp [analyticsExtract] at h
  · simp [analyticsExtract] at h
  · simp [analyticsExtract] at h
  · simp [analyticsExtract] at h
  rw [analyticsExtract] at h
  rcases h1 : pyIter ((lookupField fs "analytics").getD (.arr [])) with _ | items
  · simp [h1] at h
  simp only [h1] at h
  rcases h2 : mapOpt analyticsDimOps items with _ | dimss
  · simp [h2] at h
  simp only [h2] at h
  cases h
  intro db db' hInv happ
  obtain ⟨db1, ha1, ha2⟩ := applyOps_append_split happ
  obtain ⟨hInv1, hkeys⟩ := analyticsDims_phase items dimss db db1 h2 hInv ha1
  have hobj : ∀ item ∈ items, ∃ fs0, item = JVal.obj fs0 := by
    intro item hit
    obtain ⟨ops0, hops0⟩ := mapOpt_forall h2 item hit
    rcases item with _ | b | q | s | xs | fs0
    · simp [analyticsDimOps] at hops0
    · simp [analyticsDimOps] at hops0
    · simp [analyticsDimOps] at hops0
    · simp [analyticsDimOps] at hops0
    · simp [analyticsDimOps] at hops0
    · exact ⟨fs0, rfl⟩
  exact analyticsBlobs_phase items db1 db' hkeys hobj hInv1 ha2

/-- C1: running the import pass twice on the same snapshot directory, the
second pass leaves the row counts of `models`, `symbols`, `price_latest`,
`trades`, `positions` and `model_analytics` unchanged (the per-entity
upserts are idempotent; in fact those tables are unchanged row-for-row),
while `conversations` and `conversation_messages` exactly double (a new
`Conversation` row and its messages are inserted on every pass). -/
theorem C1_reimport_counts :
    ∀ (dir : DataDir) (db1 db2 : DB) (w1 w2 : List String),
      run_import false dir emptyDB = some (db1, w1) →
      run_import false dir db1 = some (db2, w2) →
      db2.models.length = db1.models.length
      ∧ db2.symbols.length = db1.symbols.length
      ∧ db2.price_latest.length = db1.price_latest.length
      ∧ db2.trades.length = db1.trades.length
      ∧ db2.positions.length = db1.positions.length
      ∧ db2.model_analytics.length = db1.model_analytics.length
      ∧ db2.conversations.length = 2 * db1.conversations.length
      ∧ db2.conversation_messages.length = 2 * db1.conversation_messages.length := by
  intro dir db1 db2 w1 w2 h1 h2
  rw [run_import_eq_runSections] at h1 h2
  obtain ⟨L1, hs1, ha1⟩ := runSections_factor sections emptyDB dir db1 w1 h1
  obtain ⟨L2, hs2, ha2⟩ := runSections_factor sections db1 dir db2 w2 h2
  have hL : L1 = L2 := by
    rw [hs1] at hs2
    exact Option.some.inj hs2
  subst hL
  obtain ⟨m1, s1, p1, t1, q1, a1, c1, g1⟩ := applyOps_spec L1 emptyDB db1 ha1
  obtain ⟨m2, s2, p2, t2, q2, a2, c2, g2⟩ := applyOps_spec L1 db1 db2 ha2
  have hm : db2.models = db1.models := by
    rw [m2, m1]
    exact applyUpserts_idem (modelPairsOf L1) emptyDB.models
  have hs : db2.symbols = db1.symbols := by
    rw [s2, s1]
    exact applyInserts_idem _ _ (fun r _ => by simp [symKeyEq])
  have hp : db2.price_latest = db1.price_latest := by
    rw [p2, p1]
    exact applyUpserts_idem (pricePairsOf L1) emptyDB.price_latest
  have ht : db2.trades = db1.trades := by
    rw [t2, t1]
    exact applyInserts_idem _ _ (fun r _ => jeq_refl r.id)
  have hq : db2.positions = db1.positions := by
    rw [q2, q1]
    exact applyInserts_idem _ _ (fun r _ => by simp [posKeyEq])
  have ha : db2.model_analytics = db1.model_analytics := by
    rw [a2, a1]
    exact applyUpserts_idem (anPairsOf L1) emptyDB.model_analytics
  have h0c : emptyDB.conversations.length = 0 := rfl
  have h0g : emptyDB.conversation_messages.length = 0 := rfl
  rw [h0c] at c1
  rw [h0g] at g1
  exact ⟨by rw [hm], by rw [hs], by rw [hp], by rw [ht], by rw [hq], by rw [ha],
    by omega, by omega⟩

/-- C1 (witness: a directory with one conversation of one message; the
second pass doubles conversations and messages and keeps models). -/
theorem C1_witness :
    c1db2.models.length = c1db1.models.length
    ∧ c1db2.symbols.length = c1db1.symbols.length
    ∧ c1db2.price_latest.length = c1db1.price_latest.length
    ∧ c1db2.trades.length = c1db1.trades.length
    ∧ c1db2.positions.length = c1db1.positions.length
    ∧ c1db2.model_analytics.length = c1db1.model_analytics.length
    ∧ c1db2.conversations.length = 2 * c1db1.conversations.length
    ∧ c1db2.conversation_messages.length = 2 * c1db1.conversation_messages.length :=
  C1_reimport_counts c1dir c1db1 c1db2 c1w1 c1w2
    (by with_unfolding_all rfl) (by with_unfolding_all rfl)



theorem sectionsOps_invPres :
    ∀ (l : List SectionSpec) (dir : DataDir) (L : List Op),
      sectionsOps l dir = some L →
      (∀ s ∈ l, ∀ (v : JVal) (ops : List Op), s.extract v = some ops → InvPres ops) →
      InvPres L
  | [], dir, L, h, _ => by
    cases h
    exact InvPres_nil
  | s :: rest, dir, L, h, hsec => by
    rw [sectionsOps] at h
    rcases h1 : sectionOps dir s with _ | ops
    · rw [h1] at h; exact Option.noConfusion h
    rw [h1] at h
    rcases h2 : sectionsOps rest dir with _ | L1
    · rw [h2] at h; exact Option.noConfusion h
    rw [h2] at h
    cases h
    have hrest : InvPres L1 :=
      sectionsOps_invPres rest dir L1 h2
        (fun t ht v ops2 he => hsec t (List.mem_cons_of_mem s ht) v ops2 he)
    have hhead : InvPres ops := by
      rw [sectionOps] at h1
      rcases hr : dir.read s.file with _ | _ | v
      · rw [hr] at h1
        cases h1
        exact InvPres_nil
      · rw [hr] at h1
        exact Option.noConfusion h1
      · rw [hr] at h1
        exact hsec s (List.mem_cons_self s rest) v ops h1
    exact InvPres_append hhead hrest

theorem Inv_emptyDB : Inv emptyDB := by
  refine ⟨?_, ?_, ?_, ?_⟩ <;> intro x hx <;> exact absurd hx (List.not_mem_nil _)

/-- C2 (amended): starting from an empty store, a successful pass leaves
every dependent row referentially sound in the stripped-string sense — the
model/symbol rows the importer upserts before each dependent insert are
keyed by `str(value).strip()`, while the stored trade columns keep the raw
values — and rows whose identifier is NULL or strips to the empty string
reference no dimension row at all.  (Since the store starts empty, every
referenced dimension row was upserted earlier in the same pass.) -/
theorem C2_upsert_before_reference :
    ∀ (dir : DataDir) (db' : DB) (w : List String),
      run_import false dir emptyDB = some (db', w) →
      (∀ r ∈ db'.trades,
          (r.model_id ≠ JVal.null → strippedStr r.model_id ≠ "" →
            hasKeyA db'.models (strippedStr r.model_id) = true)
          ∧ (r.symbol ≠ JVal.null → strippedStr r.symbol ≠ "" →
            strippedStr r.symbol ∈ db'.symbols))
      ∧ (∀ r ∈ db'.positions,
          (r.model_id ≠ "" → hasKeyA db'.models r.model_id = true)
          ∧ pyStrip r.symbol ∈ db'.symbols)
      ∧ (∀ p ∈ db'.model_analytics, hasKeyA db'.models p.1 = true)
      ∧ (∀ c ∈ db'.conversations, c.2 ≠ "" → hasKeyA db'.models c.2 = true) := by
  intro dir db' w h
  rw [run_import_eq_runSections] at h
  obtain ⟨L, hs, ha⟩ := runSections_factor sections emptyDB dir db' w h
  have hpres : InvPres L := by
    refine sectionsOps_invPres sections dir L hs ?_
    intro s hsmem v ops he
    rw [sections] at hsmem
    simp only [List.mem_cons, List.not_mem_nil, or_false] at hsmem
    rcases hsmem with rfl | rfl | rfl | rfl | rfl | rfl
    · exact pricesExtract_invPres he
    · exact sinceExtract_invPres he
    · exact tradesExtract_invPres he
    · exact positionsExtract_invPres he
    · exact analyticsExtract_invPres he
    · exact conversationsExtract_invPres he
  exact hpres emptyDB db' Inv_emptyDB ha

/-- C2 (counterexample to the claim as stated): a conversation record with
no `model_id` is written as a conversation row carrying model_id `""` while
no Model row at all is upserted in the pass. -/
theorem C2_counterexample :
    (run_import false c2dir emptyDB).map (fun p => (p.1.conversations, p.1.models))
      = some ([(1, "")], []) := by
  with_unfolding_all rfl

/-- C2 (witness: a pass writing a trade and a position satisfies the amended
referential guarantee). -/
theorem C2_witness :
    (∀ r ∈ c2wdb.trades,
        (r.model_id ≠ JVal.null → strippedStr r.model_id ≠ "" →
          hasKeyA c2wdb.models (strippedStr r.model_id) = true)
        ∧ (r.symbol ≠ JVal.null → strippedStr r.symbol ≠ "" →
          strippedStr r.symbol ∈ c2wdb.symbols))
    ∧ (∀ r ∈ c2wdb.positions,
        (r.model_id ≠ "" → hasKeyA c2wdb.models r.model_id = true)
        ∧ pyStrip r.symbol ∈ c2wdb.symbols)
    ∧ (∀ p ∈ c2wdb.model_analytics, hasKeyA c2wdb.models p.1 = true)
    ∧ (∀ c ∈ c2wdb.conversations, c.2 ≠ "" → hasKeyA c2wdb.models c.2 = true) :=
  C2_upsert_before_reference c2wdir c2wdb c2wws (by with_unfolding_all rfl)


end Nof0
